import Mathlib

/-! The capstan image repository.

A model of `util/repository.go`: the path convention of the repository, import, existence
check, removal and listing, over an explicit interface to the file system, with the
properties of the specification proved or refuted on it.
-/

namespace Capstan

/-! ## Go strings and `path/filepath` on Unix

Go strings are byte sequences. They are modelled as lists of characters: the functions below
compare bytes only with the separator `/` and the dot, both ASCII, so they act on the
characters of a UTF-8 string exactly as on its bytes. -/

/-- A Go string. -/
abbrev GoString := List Char

/-- The backtracking loop of `Clean` at a `..` element, after the first `out.w--`:
`for out.w > dotdot && !os.IsPathSeparator(out.index(out.w)) { out.w-- }`. The argument is the
value of `out.w` on entry, the result its value on exit; `buf` is the buffer before
truncation, which `out.index` still reads. -/
def scanBack (buf : GoString) (dotdot : Nat) : Nat → Nat
  | 0 => 0
  | w + 1 =>
    if w + 1 > dotdot ∧ buf.get? (w + 1) ≠ some '/' then scanBack buf dotdot w else w + 1

/-- The loop `for r < n` of `filepath.Clean`. The second argument is the unread part
`path[r:]`, `out` is the content `buf[0:w]` of the lazy buffer, `dotdot` the mark where `..`
must stop. Every iteration consumes at least one byte, so the fuel (first argument) is
enough when it is at least the length of the unread part. -/
def cleanLoop (rooted : Bool) : Nat → GoString → GoString → Nat → GoString × Nat
  | 0, _, out, dotdot => (out, dotdot)
  | _ + 1, [], out, dotdot => (out, dotdot)
  | fuel + 1, c :: rest, out, dotdot =>
    if c = '/' then
      cleanLoop rooted fuel rest out dotdot
    else if c = '.' ∧ (rest = [] ∨ rest.head? = some '/') then
      cleanLoop rooted fuel rest out dotdot
    else if c = '.' ∧ rest.head? = some '.' ∧ (rest.tail = [] ∨ rest.tail.head? = some '/') then
      if out.length > dotdot then
        cleanLoop rooted fuel rest.tail (out.take (scanBack out dotdot (out.length - 1))) dotdot
      else if rooted = false then
        let out1 := if out.length > 0 then out ++ ['/'] else out
        let out2 := out1 ++ ['.', '.']
        cleanLoop rooted fuel rest.tail out2 out2.length
      else
        cleanLoop rooted fuel rest.tail out dotdot
    else
      let out1 :=
        if (rooted = true ∧ out.length ≠ 1) ∨ (rooted = false ∧ out.length ≠ 0) then out ++ ['/']
        else out
      cleanLoop rooted fuel ((c :: rest).dropWhile (· ≠ '/'))
        (out1 ++ (c :: rest).takeWhile (· ≠ '/')) dotdot

/-- Go's `filepath.Clean` on Unix, where the volume name is empty and `FromSlash` is the
identity. -/
def Clean (path : GoString) : GoString :=
  if path = [] then ['.']
  else
    let rooted : Bool := path.head? = some '/'
    let n := path.length
    let out :=
      if rooted then (cleanLoop true n path.tail ['/'] 1).1
      else (cleanLoop false n path [] 0).1
    if out.length = 0 then ['.'] else out

/-- Go's `filepath.Join` on Unix: the elements from the first non-empty one on, joined by
separators and cleaned; the empty string when all are empty. -/
def Join : List GoString → GoString
  | [] => []
  | e :: rest => if e ≠ [] then Clean (List.intercalate ['/'] (e :: rest)) else Join rest

/-- Go's `filepath.Base` on Unix: strip trailing separators, keep what follows the last
separator; `.` for the empty path and the separator for a path of separators only. -/
def Base (path : GoString) : GoString :=
  if path = [] then ['.']
  else
    let path1 := (path.reverse.dropWhile (· = '/')).reverse
    let path2 := (path1.reverse.takeWhile (· ≠ '/')).reverse
    if path2 = [] then ['/'] else path2

/-- Go's `filepath.Dir` on Unix: `Clean` of the path up to and including its last
separator. -/
def Dir (path : GoString) : GoString :=
  Clean (path.reverse.dropWhile (· ≠ '/')).reverse

/-! ## The repository: `util/repository.go` -/

/-- The type `Repo` (lines 23-25). -/
structure Repo where
  Path : GoString

/-- The method `ImagePath` (lines 114-116); `fmt.Sprintf` of `%s.%s` is the base name, a dot
and the hypervisor. -/
def Repo.ImagePath (r : Repo) (hypervisor image : GoString) : GoString :=
  Join [r.Path, image, Base image ++ ['.'] ++ hypervisor]

/-! ## The loop of `Clean`, element by element

The definitions of this section are not part of the program: they describe the loop of
`Clean` as a fold over the path elements between separators and are used in the proofs. -/

/-- The elements of a path: the pieces between separators, empty pieces included. -/
def splitSlash : GoString → List GoString
  | [] => [[]]
  | c :: rest =>
    if c = '/' then [] :: splitSlash rest
    else
      match splitSlash rest with
      | [] => [[c]]
      | e :: es => (c :: e) :: es

/-- The default case of the loop: add a separator unless the buffer is at its start, then
copy the element. -/
def pushElem (rooted : Bool) (out e : GoString) : GoString :=
  (if (rooted = true ∧ out.length ≠ 1) ∨ (rooted = false ∧ out.length ≠ 0) then out ++ ['/']
    else out) ++ e

/-- The `..` case of the loop: backtrack over the last copied element, or append `..` to an
unrooted buffer that has nothing to backtrack, or do nothing at the root. -/
def dotdotStep (rooted : Bool) (st : GoString × Nat) : GoString × Nat :=
  if st.1.length > st.2 then
    (st.1.take (scanBack st.1 st.2 (st.1.length - 1)), st.2)
  else if rooted = false then
    ((if st.1.length > 0 then st.1 ++ ['/'] else st.1) ++ ['.', '.'],
      ((if st.1.length > 0 then st.1 ++ ['/'] else st.1) ++ ['.', '.']).length)
  else st

/-- One element of the path through the loop. -/
def stepElem (rooted : Bool) (st : GoString × Nat) (e : GoString) : GoString × Nat :=
  if e = [] ∨ e = ['.'] then st
  else if e = ['.', '.'] then dotdotStep rooted st
  else (pushElem rooted st.1 e, st.2)

/-- A path element that `Clean` copies to its output: non-empty, without separator, and neither
`.` nor `..`. -/
def Normal (e : GoString) : Prop := e ≠ [] ∧ '/' ∉ e ∧ e ≠ ['.'] ∧ e ≠ ['.', '.']

instance (e : GoString) : Decidable (Normal e) := by
  unfold Normal
  infer_instance

/-- The initial loop state of `Clean`: the output buffer and the `dotdot` mark. -/
def initState (rooted : Bool) : GoString × Nat := if rooted then (['/'], 1) else ([], 0)

/-- Output buffers that the loop of `Clean` can hold between two path elements: the initial
buffer, extended by `..` elements while nothing can be backtracked, and by copied elements. -/
inductive Canon (rooted : Bool) : GoString → Nat → Prop
  | init : Canon rooted (initState rooted).1 (initState rooted).2
  | dots (out : GoString) (dotdot : Nat) : rooted = false → Canon rooted out dotdot →
      out.length = dotdot →
      Canon rooted ((if out.length > 0 then out ++ ['/'] else out) ++ ['.', '.'])
        ((if out.length > 0 then out ++ ['/'] else out) ++ ['.', '.']).length
  | push (out : GoString) (dotdot : Nat) (e : GoString) : Canon rooted out dotdot → Normal e →
      Canon rooted (pushElem rooted out e) dotdot

/-- Whether `Clean` treats the path as rooted: its first byte is the separator. -/
def isRooted (p : GoString) : Bool := p.head? = some '/'

/-- The part of the path the loop of `Clean` reads: everything after the leading separator of
a rooted path. -/
def loopInput (rooted : Bool) (p : GoString) : GoString := if rooted then p.tail else p

/-- The loop state of `Clean` after the whole path has been read, element by element. -/
def cleanState (p : GoString) : GoString × Nat :=
  (splitSlash (loopInput (isRooted p) p)).foldl (stepElem (isRooted p)) (initState (isRooted p))

/-- The last step of `Clean`: an empty buffer is turned into `.`. -/
def finalize (out : GoString) : GoString := if out.length = 0 then ['.'] else out

/-- A hypervisor tag that is a plain file-name suffix: non-empty, without separator, not `.`. -/
def PlainTag (h : GoString) : Prop := h ≠ [] ∧ '/' ∉ h ∧ h ≠ ['.']

instance (h : GoString) : Decidable (PlainTag h) := by
  unfold PlainTag
  infer_instance

/-- The entry `e` of directory `dir`, as a cleaned path. -/
def child (dir e : GoString) : GoString :=
  if dir = ['.'] then e else if dir = ['/'] then '/' :: e else dir ++ '/' :: e

/-- The joined path that `Join [root, name]` cleans. -/
def joined (root name : GoString) : GoString := if root = [] then name else root ++ '/' :: name

/-! ## The calls the repository makes -/

/-- The content of a file. -/
abbrev Bytes := List Nat

/-- The error numbers of the system calls behind the file operations. -/
inductive Errno
  | ENOENT
  | EACCES
  | ENOTDIR
  | EISDIR
  | EINVAL
  deriving DecidableEq

/-- Go `error` values that reach the repository code. -/
inductive GoError
  | errorString (msg : GoString)
  | pathError (errno : Errno)
  | exitError (status : Nat)
  | external (msg : GoString)
  deriving DecidableEq

instance {ε α : Type} [DecidableEq ε] [DecidableEq α] : DecidableEq (Except ε α)
  | .ok a, .ok b =>
    if h : a = b then isTrue (by rw [h]) else isFalse (fun h2 => h (by cases h2; rfl))
  | .error a, .error b =>
    if h : a = b then isTrue (by rw [h]) else isFalse (fun h2 => h (by cases h2; rfl))
  | .ok _, .error _ => isFalse (fun h => by cases h)
  | .error _, .ok _ => isFalse (fun h => by cases h)

/-- Go's `errors.New`; `fmt.Errorf` without verbs other than `%s` builds the same value. -/
def errorsNew (msg : GoString) : GoError := GoError.errorString msg

/-- The `error` half of a Go `(value, error)` result; `none` is `nil`. -/
def errOf {α : Type} : Except GoError α → Option GoError
  | .ok _ => none
  | .error e => some e

/-- Go's `os.IsNotExist`: true for a not-found error, false for `nil` and every other error. -/
def IsNotExist : Option GoError → Bool
  | some (GoError.pathError Errno.ENOENT) => true
  | _ => false

/-- Go's `os.FileInfo`, reduced to the two methods the repository calls. -/
structure FileInfo where
  Name : GoString
  IsDir : Bool
  deriving DecidableEq

/-- Modelled from the spec: `image.ImageFormat`, the result of the format prober, declared in
package `image`: one of VDI, QCOW2, VMDK or unknown. -/
inductive ImageFormat
  | QCOW2
  | VDI
  | VMDK
  | Unknown
  deriving DecidableEq

/-- Go's `exec.Cmd` as built by `exec.Command`. -/
structure Cmd where
  Path : GoString
  Args : List GoString
  deriving DecidableEq

/-- Go's `exec.Command`. -/
def Command (name : GoString) (args : List GoString) : Cmd := ⟨name, args⟩

/-- The type `ImageInfo` (lines 37-43). -/
structure ImageInfo where
  FormatVersion : GoString
  Version : GoString
  Created : GoString
  Description : GoString
  Build : GoString
  deriving DecidableEq

/-- The calls the repository makes, over a file-system state `σ`: into the Go library
(`os.Stat`, `os.MkdirAll`, `ioutil.WriteFile`, `ioutil.ReadDir`, `(*exec.Cmd).Output`,
`yaml.Marshal`) and into the rest of the code base, which is taken as a parameter
(`image.Probe`, `CopyFile`, `MakeFileInfo` with the text its `String` method renders, and
`FileInfoHeader`). Calls that only read take the state and return a result; calls that may
write return the new state as well. `Contents` is not called by the repository: it observes
the bytes of the regular file at a path. -/
structure Sys (σ : Type) where
  Stat : σ → GoString → Except GoError FileInfo
  MkdirAll : σ → GoString → Nat → Option GoError × σ
  WriteFile : σ → GoString → Bytes → Nat → Option GoError × σ
  ReadDir : σ → GoString → Except GoError (List FileInfo)
  Output : σ → Cmd → Except GoError Bytes × σ
  Marshal : ImageInfo → Except GoError Bytes
  Probe : σ → GoString → Except GoError ImageFormat
  CopyFile : GoString → GoString → Cmd
  MakeFileInfo : σ → GoString → GoString → GoString → Option GoString
  FileInfoHeader : GoString
  Contents : σ → GoString → Option Bytes

/-- The process state the repository acts on: the file system and what was written to
standard output, one entry for each print call. -/
structure World (σ : Type) where
  fs : σ
  stdout : List GoString

/-- Go's `fmt.Printf` with the text already formatted. -/
def World.Printf {σ : Type} (w : World σ) (text : GoString) : World σ :=
  { w with stdout := w.stdout ++ [text] }

/-- Go's `fmt.Println` of one string. -/
def World.Println {σ : Type} (w : World σ) (line : GoString) : World σ :=
  { w with stdout := w.stdout ++ [line ++ ['\n']] }

/-! ## The operations of the repository -/

/-- The function `NewRepo` (lines 27-35), with the value of `CAPSTAN_ROOT` and of
`HomePath()` passed in. -/
def NewRepo (capstanRoot homePath : GoString) : Repo :=
  let root := if capstanRoot = [] then Join [homePath, "/.capstan/repository/".toList]
    else capstanRoot
  { Path := root }

/-- The `switch format` of `ImportImage` (lines 51-60): `none` is the `default` branch. -/
def hypervisorFor : ImageFormat → Option GoString
  | .VDI => some "vbox".toList
  | .QCOW2 => some "qemu".toList
  | .VMDK => some "vmware".toList
  | _ => none

/-- The method `ImportImage` (lines 45-93). -/
def Repo.ImportImage {σ : Type} (sys : Sys σ) (r : Repo)
    (imageName file version created description build : GoString) (w : World σ) :
    Option GoError × World σ :=
  match sys.Probe w.fs file with
  | .error err => (some err, w)
  | .ok format =>
    match hypervisorFor format with
    | none => (some (GoError.errorString (file ++ ": unsupported image format".toList)), w)
    | some hypervisor =>
      if IsNotExist (errOf (sys.Stat w.fs file)) then
        (some (errorsNew (file ++ ": no such file".toList)), w)
      else
        let w1 := w.Printf ("Importing ".toList ++ imageName ++ "...\n".toList)
        let dir := Dir (r.ImagePath hypervisor imageName)
        match sys.MkdirAll w1.fs dir 0o775 with
        | (some _, fs2) => (some (errorsNew (dir ++ ": mkdir failed".toList)), { w1 with fs := fs2 })
        | (none, fs2) =>
          let dst := r.ImagePath hypervisor imageName
          let cmd := sys.CopyFile file dst
          match sys.Output fs2 cmd with
          | (.error err, fs3) => (some err, { w1 with fs := fs3 })
          | (.ok _, fs3) =>
            let info : ImageInfo :=
              { FormatVersion := "1".toList
                Version := version
                Created := created
                Description := description
                Build := build }
            match sys.Marshal info with
            | .error err => (some err, { w1 with fs := fs3 })
            | .ok value =>
              match sys.WriteFile fs3 (Join [dir, "index.yaml".toList]) value 0o644 with
              | (some err, fs4) => (some err, { w1 with fs := fs4 })
              | (none, fs4) => (none, { w1 with fs := fs4 })

/-- The method `ImageExists` (lines 95-101). -/
def Repo.ImageExists {σ : Type} (sys : Sys σ) (r : Repo) (fs : σ)
    (hypervisor image : GoString) : Bool :=
  let file := r.ImagePath hypervisor image
  if IsNotExist (errOf (sys.Stat fs file)) then false else true

/-- The method `RemoveImage` (lines 103-112). -/
def Repo.RemoveImage {σ : Type} (sys : Sys σ) (r : Repo) (image : GoString) (w : World σ) :
    Option GoError × World σ :=
  let path := Join [r.Path, image]
  if IsNotExist (errOf (sys.Stat w.fs path)) then
    (some (errorsNew (image ++ ": no such image\n".toList)), w)
  else
    let w1 := w.Printf ("Removing ".toList ++ image ++ "...\n".toList)
    let cmd := Command "rm".toList ["-rf".toList, path]
    match sys.Output w1.fs cmd with
    | (res, fs2) => (errOf res, { w1 with fs := fs2 })

/-- The body of the inner loop of `ListImages` for one entry `i` of namespace `n`; the state
is the world and the counters `nrImages` and `nrFiles`. -/
def listEntry {σ : Type} (sys : Sys σ) (r : Repo) (n : FileInfo)
    (st : World σ × Nat × Nat) (i : FileInfo) : World σ × Nat × Nat :=
  match st with
  | (w, nrImages, nrFiles) =>
    if i.IsDir then
      match sys.MakeFileInfo w.fs r.Path n.Name i.Name with
      | none => (w.Println (n.Name ++ "/".toList ++ i.Name), nrImages + 1, nrFiles)
      | some info => (w.Println info, nrImages + 1, nrFiles)
    else (w, nrImages, nrFiles + 1)

/-- The body of the outer loop of `ListImages` for one namespace `n`. -/
def listNamespace {σ : Type} (sys : Sys σ) (r : Repo) (w : World σ) (n : FileInfo) : World σ :=
  let images := match sys.ReadDir w.fs (Join [r.Path, n.Name]) with
    | .ok l => l
    | .error _ => []
  match images.foldl (listEntry sys r n) (w, 0, 0) with
  | (w1, nrImages, nrFiles) =>
    if nrImages = 0 ∧ nrFiles ≠ 0 then w1.Println n.Name else w1

/-- The method `ListImages` (lines 118-143). -/
def Repo.ListImages {σ : Type} (sys : Sys σ) (r : Repo) (w : World σ) : World σ :=
  let w1 := w.Println sys.FileInfoHeader
  let namespaces := match sys.ReadDir w1.fs r.Path with
    | .ok l => l
    | .error _ => []
  namespaces.foldl (listNamespace sys r) w1

/-! ## What the repository relies on in the calls it makes -/

/-- A path whose bytes can be read can be stat'ed. -/
def Sys.StatLaw {σ : Type} (sys : Sys σ) : Prop :=
  ∀ fs p b, sys.Contents fs p = some b → ∃ info, sys.Stat fs p = .ok info

/-- The empty path names no file: `os.Stat` of it fails with a not-found error. -/
def Sys.EmptyPathLaw {σ : Type} (sys : Sys σ) : Prop :=
  ∀ fs, IsNotExist (errOf (sys.Stat fs [])) = true

/-- Go's `os.MkdirAll` creates directories only: it leaves the bytes of every file as they
were. -/
def Sys.MkdirLaw {σ : Type} (sys : Sys σ) : Prop :=
  ∀ fs p perm q, sys.Contents (sys.MkdirAll fs p perm).2 q = sys.Contents fs q

/-- Modelled from the spec: `util.CopyFile`, declared elsewhere in package `util`, builds the
command that copies the full byte content of the source file to the destination path. When
running it succeeds, the source was a readable file and the destination holds its bytes. -/
def Sys.CopyLaw {σ : Type} (sys : Sys σ) : Prop :=
  ∀ fs src dst out fs2, sys.Output fs (sys.CopyFile src dst) = (.ok out, fs2) →
    (sys.Contents fs src).isSome = true ∧ sys.Contents fs2 dst = sys.Contents fs src

/-- A successful `ioutil.WriteFile` stores the bytes at the path and changes no other path. -/
def Sys.WriteLaw {σ : Type} (sys : Sys σ) : Prop :=
  ∀ fs p v perm fs2, sys.WriteFile fs p v perm = (none, fs2) →
    sys.Contents fs2 p = some v ∧ ∀ q, q ≠ p → sys.Contents fs2 q = sys.Contents fs q

/-- After a successful `rm -rf p` of a path `p` that existed, neither `p` nor any entry of `p`
can be found. -/
def Sys.RemoveLaw {σ : Type} (sys : Sys σ) : Prop :=
  ∀ fs p info out fs2, sys.Stat fs p = .ok info →
    sys.Output fs (Command "rm".toList ["-rf".toList, p]) = (.ok out, fs2) →
    IsNotExist (errOf (sys.Stat fs2 p)) = true ∧
      ∀ e, e ≠ [] → '/' ∉ e → IsNotExist (errOf (sys.Stat fs2 (child p e))) = true

/-! ## The listing as the specification words it -/

/-- The entries of a directory, none when it cannot be read. -/
def readDirOrEmpty {σ : Type} (sys : Sys σ) (fs : σ) (dir : GoString) : List FileInfo :=
  match sys.ReadDir fs dir with
  | .ok l => l
  | .error _ => []

/-- As the specification words it: the line printed for an entry of a namespace that is a
directory, the presenter's record or, when there is none, namespace, separator and entry. -/
def specImageLine {σ : Type} (sys : Sys σ) (r : Repo) (fs : σ) (n i : FileInfo) : GoString :=
  match sys.MakeFileInfo fs r.Path n.Name i.Name with
  | none => n.Name ++ '/' :: i.Name
  | some info => info

/-- As the specification words it: the lines a namespace contributes, one for each entry that
is a directory, none for plain files, and the bare namespace name once when it has no
directory entry and at least one plain-file entry. -/
def specNamespaceLines {σ : Type} (sys : Sys σ) (r : Repo) (fs : σ) (n : FileInfo) :
    List GoString :=
  let entries := readDirOrEmpty sys fs (Join [r.Path, n.Name])
  (entries.filter (fun i => i.IsDir)).map (specImageLine sys r fs n) ++
    (if (entries.filter (fun i => i.IsDir)).length = 0 ∧
        (entries.filter (fun i => !i.IsDir)).length ≠ 0 then [n.Name] else [])

/-- As the specification words it: the listing is the header line, then the lines of each
namespace in directory order. -/
def specListingLines {σ : Type} (sys : Sys σ) (r : Repo) (fs : σ) : List GoString :=
  sys.FileInfoHeader :: (readDirOrEmpty sys fs r.Path).flatMap (specNamespaceLines sys r fs)

/-- The three hypervisor tags. -/
def hypervisorTags : List GoString := ["qemu".toList, "vbox".toList, "vmware".toList]

/-! ## An in-memory file system -/

/-- What the in-memory file system stores at a path. -/
inductive Node
  | file (data : Bytes)
  | dir
  deriving DecidableEq

/-- A file system held in memory: what is stored at each cleaned path, the paths that may not
be accessed, and the entry names directories are listed by, in sorted order. -/
structure MemFS where
  node : GoString → Option Node
  denied : GoString → Bool
  names : List GoString

/-- Byte-wise order of names, for sorted listings. -/
def strLt : GoString → GoString → Bool
  | [], [] => false
  | [], _ :: _ => true
  | _ :: _, [] => false
  | a :: as, b :: bs => if a.toNat < b.toNat then true else if a = b then strLt as bs else false

/-- Insert a name into a sorted list of names, once. -/
def insertName (n : GoString) : List GoString → List GoString
  | [] => [n]
  | m :: rest =>
    if n = m then m :: rest else if strLt n m then n :: m :: rest else m :: insertName n rest

/-- Whether the second string starts with the first. -/
def startsWith : GoString → GoString → Bool
  | [], _ => true
  | _ :: _, [] => false
  | a :: as, b :: bs => if a = b then startsWith as bs else false

/-- The non-empty strings `pre ++ y` such that the path read so far, `pre`, followed by the
unread part continues with `y` and then a separator. -/
def ancestorsAux (pre : GoString) : GoString → List GoString
  | [] => []
  | c :: rest =>
    if c = '/' ∧ pre ≠ [] then pre :: ancestorsAux (pre ++ [c]) rest
    else ancestorsAux (pre ++ [c]) rest

/-- The proper ancestors of a path, outermost first: its non-empty parts that end right
before a separator. -/
def ancestors (p : GoString) : List GoString := ancestorsAux [] p

/-- Resolve a path as the system calls do. The empty path is not found; a path that may not
be accessed is denied; otherwise the first ancestor that is not a directory decides: the
answer is `ENOTDIR` when it is a regular file and `ENOENT` when nothing is there; when every
ancestor is a directory the answer is what the path itself holds. -/
def MemFS.lookup (s : MemFS) (p : GoString) : Except GoError Node :=
  if p = [] then .error (.pathError .ENOENT)
  else if s.denied p then .error (.pathError .EACCES)
  else
    match (ancestors p).find? (fun a => decide (s.node a ≠ some .dir)) with
    | some a =>
      match s.node a with
      | some (.file _) => .error (.pathError .ENOTDIR)
      | _ => .error (.pathError .ENOENT)
    | none =>
      match s.node p with
      | none => .error (.pathError .ENOENT)
      | some n => .ok n

/-- The in-memory `os.Stat`. -/
def MemFS.Stat (s : MemFS) (p : GoString) : Except GoError FileInfo :=
  match s.lookup p with
  | .ok (.file _) => .ok ⟨Base p, false⟩
  | .ok .dir => .ok ⟨Base p, true⟩
  | .error e => .error e

/-- The bytes of the regular file at a path. -/
def MemFS.Contents (s : MemFS) (p : GoString) : Option Bytes :=
  match s.lookup p with
  | .ok (.file b) => some b
  | _ => none

/-- The in-memory `os.MkdirAll`: make the path and its ancestors directories, unless one of
them is a regular file or may not be accessed. A directory that is made starts empty. -/
def MemFS.MkdirAll (s : MemFS) (p : GoString) (_perm : Nat) : Option GoError × MemFS :=
  let chain := ancestors p ++ [p]
  if p = [] then (some (.pathError .ENOENT), s)
  else if chain.any (fun q => s.denied q) then (some (.pathError .EACCES), s)
  else if chain.any (fun q => match s.node q with
      | some (.file _) => true
      | _ => false) then (some (.pathError .ENOTDIR), s)
  else
    (none,
      { node := fun q =>
          if q ∈ chain ∧ s.node q = none then some .dir
          else if (ancestors q).any (fun a => decide (a ∈ chain ∧ s.node a = none)) then none
          else s.node q
        denied := s.denied
        names := (chain.map Base).foldl (fun l n => insertName n l) s.names })

/-- Store a regular file at a path whose ancestors are all directories. -/
def MemFS.writeAt (s : MemFS) (p : GoString) (b : Bytes) : Option GoError × MemFS :=
  if p = [] then (some (.pathError .ENOENT), s)
  else if s.denied p then (some (.pathError .EACCES), s)
  else
    match (ancestors p).find? (fun a => decide (s.node a ≠ some .dir)) with
    | some a =>
      match s.node a with
      | some (.file _) => (some (.pathError .ENOTDIR), s)
      | _ => (some (.pathError .ENOENT), s)
    | none =>
      match s.node p with
      | some .dir => (some (.pathError .EISDIR), s)
      | _ =>
        (none,
          { node := fun q => if q = p then some (.file b) else s.node q
            denied := s.denied
            names := insertName (Base p) s.names })

/-- The in-memory `ioutil.WriteFile`. -/
def MemFS.WriteFile (s : MemFS) (p : GoString) (b : Bytes) (_perm : Nat) :
    Option GoError × MemFS :=
  s.writeAt p b

/-- Run `rm -rf p`: refused for the empty path, the root, `.` and `..`; with `-f` a path that
does not exist is no error. -/
def MemFS.rmrf (s : MemFS) (p : GoString) : Except GoError Bytes × MemFS :=
  if p = [] ∨ p = ['/'] ∨ Base p = ['.'] ∨ Base p = ['.', '.'] then (.error (.exitError 1), s)
  else if s.denied p then (.error (.exitError 1), s)
  else
    (.ok [],
      { node := fun q => if q = p ∨ startsWith (p ++ ['/']) q = true then none else s.node q
        denied := fun q => if q = p ∨ startsWith (p ++ ['/']) q = true then false else s.denied q
        names := s.names })

/-- Modelled from the spec: the command built by `util.CopyFile`, which is declared elsewhere
in package `util`, copies the full byte content of the source file to the destination path,
overwriting it if present. -/
def MemFS.cp (s : MemFS) (src dst : GoString) : Except GoError Bytes × MemFS :=
  match s.Contents src with
  | none => (.error (.exitError 1), s)
  | some b =>
    match s.writeAt dst b with
    | (none, s2) => (.ok [], s2)
    | (some _, s2) => (.error (.exitError 1), s2)

/-- The in-memory `(*exec.Cmd).Output` for the two commands the repository runs. -/
def MemFS.Output (s : MemFS) (cmd : Cmd) : Except GoError Bytes × MemFS :=
  if cmd.Path = "cp".toList then
    match cmd.Args with
    | [src, dst] => s.cp src dst
    | _ => (.error (.exitError 1), s)
  else if cmd.Path = "rm".toList then
    match cmd.Args with
    | [flag, p] => if flag = "-rf".toList then s.rmrf p else (.error (.exitError 1), s)
    | _ => (.error (.exitError 1), s)
  else (.error (.external "executable file not found".toList), s)

/-- The in-memory `ioutil.ReadDir`: the entries of a directory, sorted by name. -/
def MemFS.ReadDir (s : MemFS) (p : GoString) : Except GoError (List FileInfo) :=
  match s.lookup p with
  | .ok .dir =>
    .ok (s.names.filterMap (fun n =>
      match s.lookup (child p n) with
      | .ok (.file _) => some ⟨n, false⟩
      | .ok .dir => some ⟨n, true⟩
      | .error _ => none))
  | .ok (.file _) => .error (.pathError .ENOTDIR)
  | .error e => .error e

/-- Modelled from the spec: the content inspection of `image.Probe`, declared in package
`image`: the format is read off the first bytes of the file. -/
def classify : Bytes → ImageFormat
  | 0x51 :: 0x46 :: 0x49 :: 0xfb :: _ => .QCOW2
  | 0x4b :: 0x44 :: 0x4d :: 0x56 :: _ => .VMDK
  | 0x3c :: 0x3c :: 0x3c :: 0x20 :: _ => .VDI
  | _ => .Unknown

/-- Modelled from the spec: `image.Probe`, declared in package `image`, returns one of VDI,
QCOW2, VMDK or unknown by content inspection of the file at the path, or an I/O error when
the file cannot be read. -/
def MemFS.Probe (s : MemFS) (p : GoString) : Except GoError ImageFormat :=
  match s.lookup p with
  | .ok (.file b) => .ok (classify b)
  | .ok .dir => .error (.pathError .EISDIR)
  | .error e => .error e

/-- An encoder of metadata records, standing for `yaml.Marshal`. -/
def encodeInfo (info : ImageInfo) : Bytes :=
  ("format_version: ".toList ++ info.FormatVersion ++ "\nversion: ".toList ++ info.Version ++
    "\ncreated: ".toList ++ info.Created ++ "\ndescription: ".toList ++ info.Description ++
    "\nbuild: ".toList ++ info.Build ++ "\n".toList).map Char.toNat

/-- Modelled from the spec: `MakeFileInfo`, declared elsewhere in package `util`, builds the
display record of an image from its stored metadata and returns none when there is no
metadata; the record is represented by the text its `String` method renders. -/
def MemFS.MakeFileInfo (s : MemFS) (root ns name : GoString) : Option GoString :=
  match s.Contents (Join [root, ns, name, "index.yaml".toList]) with
  | some _ => some (ns ++ '/' :: name ++ " (with metadata)".toList)
  | none => none

/-- The in-memory file system as the system the repository runs on. -/
def memSys : Sys MemFS where
  Stat := MemFS.Stat
  MkdirAll := MemFS.MkdirAll
  WriteFile := MemFS.WriteFile
  ReadDir := MemFS.ReadDir
  Output := MemFS.Output
  Marshal := fun info => .ok (encodeInfo info)
  Probe := MemFS.Probe
  CopyFile := fun src dst => Command "cp".toList [src, dst]
  MakeFileInfo := MemFS.MakeFileInfo
  FileInfoHeader := "Name Description Version Created".toList
  Contents := MemFS.Contents

/-! ## Concrete states -/

/-- Build a file-system state from a table of paths. -/
def MemFS.ofTable (table : List (GoString × Node)) (denied : List GoString)
    (names : List GoString) : MemFS where
  node := fun p => table.lookup p
  denied := fun p => decide (p ∈ denied)
  names := names

/-- A state with a repository at `/srv/repo`: namespace `ns` holds the image directory `app`
without metadata, namespace `solo` holds one plain file, and the payload of image `locked`
may not be accessed. `/tmp` holds a QCOW2 image and a text file. -/
def fs0 : MemFS :=
  MemFS.ofTable
    [("/".toList, .dir), ("/srv".toList, .dir), ("/srv/repo".toList, .dir),
      ("/srv/repo/ns".toList, .dir), ("/srv/repo/ns/app".toList, .dir),
      ("/srv/repo/solo".toList, .dir), ("/srv/repo/solo/solo.qemu".toList, .file [1, 2, 3]),
      ("/tmp".toList, .dir),
      ("/tmp/disk.img".toList, .file [0x51, 0x46, 0x49, 0xfb, 0, 0, 0, 3]),
      ("/tmp/notes.txt".toList, .file [104, 105])]
    ["/srv/repo/locked/locked.qemu".toList]
    ["app".toList, "disk.img".toList, "notes.txt".toList, "ns".toList, "repo".toList,
      "solo".toList, "solo.qemu".toList, "srv".toList, "tmp".toList]

/-- The repository rooted at `/srv/repo`. -/
def repo0 : Repo := ⟨"/srv/repo".toList⟩

/-- The state `fs0` with nothing printed yet. -/
def world0 : World MemFS := ⟨fs0, []⟩

/-- The import of `/tmp/disk.img` as image `app` into the repository of `world0`. -/
def imported0 : Option GoError × World MemFS :=
  repo0.ImportImage memSys "app".toList "/tmp/disk.img".toList "1.0".toList
    "2014-06-01".toList "demo".toList "b42".toList world0

/-- The removal of image `ns/app` from the repository of `world0`. -/
def removed0 : Option GoError × World MemFS := repo0.RemoveImage memSys "ns/app".toList world0

/-- The import of `/tmp/disk.img` as image `ns2/app`, under a namespace the repository of
`world0` does not hold yet. -/
def imported2 : Option GoError × World MemFS :=
  repo0.ImportImage memSys "ns2/app".toList "/tmp/disk.img".toList "1.0".toList
    "2014-06-01".toList "demo".toList "b42".toList world0

/-- The removal of image `app` right after the import `imported0`. -/
def removed1 : Option GoError × World MemFS :=
  repo0.RemoveImage memSys "app".toList imported0.2

/-- The removal of image `ns2/app` right after its import. -/
def removed2 : Option GoError × World MemFS :=
  repo0.RemoveImage memSys "ns2/app".toList imported2.2

/-! ## `Clean` as a fold over path elements -/

theorem splitSlash_ne_nil (p : GoString) : splitSlash p ≠ [] := by
  cases p with
  | nil => simp [splitSlash]
  | cons c rest =>
    simp only [splitSlash]
    split
    · simp
    · split <;> simp

theorem splitSlash_cons_slash (rest : GoString) :
    splitSlash ('/' :: rest) = [] :: splitSlash rest := by
  simp [splitSlash]

theorem splitSlash_eq (p : GoString) :
    splitSlash p = p.takeWhile (· ≠ '/') ::
      (match p.dropWhile (· ≠ '/') with
        | [] => []
        | _ :: r => splitSlash r) := by
  induction p with
  | nil => simp [splitSlash]
  | cons c rest ih =>
    by_cases hc : c = '/'
    · subst hc
      simp [splitSlash]
    · simp only [splitSlash, hc, if_false]
      rw [ih]
      simp [List.takeWhile_cons, List.dropWhile_cons, hc]

theorem stepElem_nil (rooted : Bool) (st : GoString × Nat) : stepElem rooted st [] = st := by
  simp [stepElem]

theorem stepElem_dot (rooted : Bool) (st : GoString × Nat) : stepElem rooted st ['.'] = st := by
  simp [stepElem]

theorem cleanLoop_eq_foldl (rooted : Bool) :
    ∀ (fuel : Nat) (p out : GoString) (dotdot : Nat), p.length ≤ fuel →
      cleanLoop rooted fuel p out dotdot = (splitSlash p).foldl (stepElem rooted) (out, dotdot) := by
  intro fuel
  induction fuel with
  | zero =>
    intro p out dotdot hp
    have : p = [] := List.length_eq_zero.mp (Nat.le_zero.mp hp)
    subst this
    simp [cleanLoop, splitSlash, stepElem]
  | succ fuel ih =>
    intro p out dotdot hp
    cases p with
    | nil => simp [cleanLoop, splitSlash, stepElem]
    | cons c rest =>
      have hrest : rest.length ≤ fuel := by simpa using hp
      unfold cleanLoop
      by_cases hc : c = '/'
      · subst hc
        simp only [if_true]
        rw [ih rest out dotdot hrest, splitSlash_cons_slash, List.foldl_cons, stepElem_nil]
      · simp only [hc, if_false]
        by_cases hdot : c = '.' ∧ (rest = [] ∨ rest.head? = some '/')
        · rw [if_pos hdot]
          obtain ⟨rfl, hr⟩ := hdot
          rw [ih rest out dotdot hrest]
          cases rest with
          | nil => simp [splitSlash, stepElem]
          | cons d r =>
            have hd : d = '/' := by simpa using hr
            subst hd
            simp [splitSlash, stepElem]
        · rw [if_neg hdot]
          by_cases hdd : c = '.' ∧ rest.head? = some '.' ∧
              (rest.tail = [] ∨ rest.tail.head? = some '/')
          · rw [if_pos hdd]
            obtain ⟨rfl, h1, h2⟩ := hdd
            cases rest with
            | nil => simp at h1
            | cons d r =>
              have hd : d = '.' := by simpa using h1
              subst hd
              have hr : r.length ≤ fuel := by simp at hrest; omega
              have hsplit : splitSlash ('.' :: '.' :: r) = ['.', '.'] :: (splitSlash r).tail := by
                cases r with
                | nil => simp [splitSlash]
                | cons x r2 =>
                  have hx : x = '/' := by simpa using h2
                  subst hx
                  simp [splitSlash]
              have hfold : ∀ st, (splitSlash r).foldl (stepElem rooted) st =
                  (splitSlash r).tail.foldl (stepElem rooted) st := by
                intro st
                cases r with
                | nil => simp [splitSlash, stepElem]
                | cons x r2 =>
                  have hx : x = '/' := by simpa using h2
                  subst hx
                  simp [splitSlash, stepElem]
              rw [hsplit, List.foldl_cons]
              simp only [List.tail_cons]
              have hstep : stepElem rooted (out, dotdot) ['.', '.'] = dotdotStep rooted (out, dotdot) := by
                simp [stepElem]
              rw [hstep, ← hfold]
              unfold dotdotStep
              simp only
              split
              · rw [ih _ _ _ hr]
              · split
                · rw [ih _ _ _ hr]
                · rw [ih _ _ _ hr]
          · rw [if_neg hdd]
            have hdrop : ((c :: rest).dropWhile (· ≠ '/')).length ≤ fuel := by
              have h1 : (c :: rest).dropWhile (· ≠ '/') = rest.dropWhile (· ≠ '/') := by
                simp [List.dropWhile_cons, hc]
              rw [h1]
              exact le_trans (List.Sublist.length_le (List.dropWhile_sublist _)) hrest
            rw [ih _ _ _ hdrop]
            rw [splitSlash_eq (c :: rest), List.foldl_cons]
            have hne1 : (c :: rest).takeWhile (· ≠ '/') ≠ [] := by
              simp [List.takeWhile_cons, hc]
            have hne2 : (c :: rest).takeWhile (· ≠ '/') ≠ ['.'] := by
              intro h
              apply hdot
              simp only [List.takeWhile_cons, hc, ne_eq, not_false_eq_true, decide_True,
                if_true, List.cons.injEq] at h
              refine ⟨h.1, ?_⟩
              cases rest with
              | nil => simp
              | cons d r =>
                right
                by_cases hd : d = '/'
                · simp [hd]
                · simp [List.takeWhile_cons, hd] at h
            have hne3 : (c :: rest).takeWhile (· ≠ '/') ≠ ['.', '.'] := by
              intro h
              apply hdd
              simp only [List.takeWhile_cons, hc, ne_eq, not_false_eq_true, decide_True,
                if_true, List.cons.injEq] at h
              refine ⟨h.1, ?_⟩
              cases rest with
              | nil => simp at h
              | cons d r =>
                by_cases hd : d = '/'
                · simp [hd] at h
                · simp only [List.takeWhile_cons, hd, ne_eq, not_false_eq_true, decide_True,
                    if_true, List.cons.injEq] at h
                  refine ⟨by simp [h.2.1], ?_⟩
                  cases r with
                  | nil => simp
                  | cons x r2 =>
                    right
                    by_cases hx : x = '/'
                    · simp [hx]
                    · simp [List.takeWhile_cons, hx] at h
            have hstep : stepElem rooted (out, dotdot) ((c :: rest).takeWhile (· ≠ '/')) =
                (pushElem rooted out ((c :: rest).takeWhile (· ≠ '/')), dotdot) := by
              simp only [stepElem, hne1, hne2, hne3, or_self, if_false]
            rw [hstep]
            unfold pushElem
            generalize hq : (c :: rest).dropWhile (· ≠ '/') = q
            cases q with
            | nil => simp [splitSlash, stepElem]
            | cons x q2 =>
              have hx : x = '/' := by
                have := List.head?_dropWhile_not (· ≠ '/') (c :: rest)
                rw [hq] at this
                simpa using this
              subst hx
              simp [splitSlash, stepElem]

theorem splitSlash_append (p q : GoString) :
    splitSlash (p ++ '/' :: q) = splitSlash p ++ splitSlash q := by
  induction p with
  | nil => simp [splitSlash]
  | cons c rest ih =>
    by_cases hc : c = '/'
    · subst hc
      simp [splitSlash, ih]
    · have h1 : (c :: rest) ++ '/' :: q = c :: (rest ++ '/' :: q) := rfl
      rw [h1]
      simp only [splitSlash, hc, if_false]
      rw [ih]
      cases h : splitSlash rest with
      | nil => exact absurd h (splitSlash_ne_nil rest)
      | cons e es => simp

theorem splitSlash_elem (e : GoString) (h : '/' ∉ e) : splitSlash e = [e] := by
  induction e with
  | nil => simp [splitSlash]
  | cons c rest ih =>
    have hc : c ≠ '/' := fun hc => h (by simp [hc])
    have hr : '/' ∉ rest := fun hr => h (by simp [hr])
    simp [splitSlash, hc, ih hr]

theorem splitSlash_no_slash (p : GoString) : ∀ e ∈ splitSlash p, '/' ∉ e := by
  induction p with
  | nil => simp [splitSlash]
  | cons c rest ih =>
    by_cases hc : c = '/'
    · subst hc
      intro e he
      simp only [splitSlash, if_true, List.mem_cons] at he
      rcases he with rfl | he
      · simp
      · exact ih e he
    · intro e he
      simp only [splitSlash, hc, if_false] at he
      cases h : splitSlash rest with
      | nil => exact absurd h (splitSlash_ne_nil rest)
      | cons e0 es =>
        rw [h] at he ih
        simp only [List.mem_cons] at he
        rcases he with rfl | he
        · have := ih e0 (by simp)
          simp only [List.mem_cons, not_or]
          exact ⟨fun h => hc h.symm, this⟩
        · exact ih e (by simp [he])

theorem stepElem_normal (rooted : Bool) (st : GoString × Nat) (e : GoString) (h : Normal e) :
    stepElem rooted st e = (pushElem rooted st.1 e, st.2) := by
  obtain ⟨h1, _, h3, h4⟩ := h
  simp [stepElem, h1, h3, h4]

theorem scanBack_stop (buf : GoString) (dotdot n : Nat) (hstop : n = dotdot ∨ buf.get? n = some '/')
    (hdd : dotdot ≤ n) :
    ∀ k, (∀ i, n < i → i ≤ n + k → buf.get? i ≠ some '/') → scanBack buf dotdot (n + k) = n := by
  intro k
  induction k with
  | zero =>
    intro _
    cases n with
    | zero => simp [scanBack]
    | succ m =>
      simp only [Nat.add_zero, scanBack]
      rw [if_neg]
      rintro ⟨h1, h2⟩
      rcases hstop with h | h
      · omega
      · exact h2 h
  | succ k ih =>
    intro h
    have h1 : n + k + 1 > dotdot := by omega
    have h2 : buf.get? (n + k + 1) ≠ some '/' := h (n + k + 1) (by omega) (by omega)
    show scanBack buf dotdot (n + k + 1) = n
    simp only [scanBack]
    rw [if_pos ⟨h1, h2⟩]
    exact ih (fun i hi1 hi2 => h i hi1 (by omega))

theorem dotdotStep_pushElem (rooted : Bool) (out e : GoString) (dotdot : Nat)
    (he1 : e ≠ []) (he2 : '/' ∉ e) (hdd : dotdot ≤ out.length)
    (hr : rooted = true → dotdot = 1 ∧ 1 ≤ out.length) :
    dotdotStep rooted (pushElem rooted out e, dotdot) = (out, dotdot) := by
  have hepos : 0 < e.length := List.length_pos.mpr he1
  have hget : ∀ (pre : GoString) (i : Nat), pre.length ≤ i → (pre ++ e).get? i ≠ some '/' := by
    intro pre i hi h
    rw [List.get?_eq_getElem?, List.getElem?_append_right hi] at h
    exact he2 (List.getElem?_mem h)
  unfold dotdotStep pushElem
  by_cases hsep : (rooted = true ∧ out.length ≠ 1) ∨ (rooted = false ∧ out.length ≠ 0)
  · simp only [if_pos hsep]
    have hlen : (out ++ ['/'] ++ e).length = out.length + (e.length - 1 + 1) + 1 := by
      simp; omega
    rw [if_pos (by rw [hlen]; omega)]
    have hsc : scanBack (out ++ ['/'] ++ e) dotdot ((out ++ ['/'] ++ e).length - 1) = out.length := by
      have : (out ++ ['/'] ++ e).length - 1 = out.length + (e.length - 1 + 1) := by
        rw [hlen]; omega
      rw [this]
      apply scanBack_stop _ _ _ _ hdd
      · intro i hi1 _
        exact hget (out ++ ['/']) i (by simp; omega)
      · right
        rw [List.append_assoc, List.get?_eq_getElem?, List.getElem?_append_right (le_refl _)]
        simp
    rw [hsc]
    simp
  · simp only [if_neg hsep]
    have hn : out.length = dotdot := by
      cases rooted with
      | true =>
        have := hr rfl
        simp at hsep
        omega
      | false =>
        simp at hsep
        simp [hsep] at hdd ⊢
        omega
    have hlen : (out ++ e).length = out.length + (e.length - 1) + 1 := by
      simp; omega
    rw [if_pos (by rw [hlen]; omega)]
    have hsc : scanBack (out ++ e) dotdot ((out ++ e).length - 1) = out.length := by
      have : (out ++ e).length - 1 = out.length + (e.length - 1) := by
        rw [hlen]; omega
      rw [this]
      apply scanBack_stop _ _ _ _ hdd
      · intro i hi1 _
        exact hget out i (by omega)
      · left; exact hn
    rw [hsc]
    simp

/-- The fuel `Clean` gives its loop is enough: more fuel does not change the result. -/
theorem cleanLoop_fuel (rooted : Bool) (fuel : Nat) (p out : GoString) (dotdot : Nat)
    (h : p.length ≤ fuel) :
    cleanLoop rooted fuel p out dotdot = cleanLoop rooted p.length p out dotdot := by
  rw [cleanLoop_eq_foldl rooted fuel p out dotdot h,
    cleanLoop_eq_foldl rooted p.length p out dotdot (le_refl _)]

/-! ## Canonical buffers -/

theorem Canon.dotdot_le {rooted : Bool} {out : GoString} {dotdot : Nat}
    (h : Canon rooted out dotdot) : dotdot ≤ out.length := by
  induction h with
  | init => cases rooted <;> simp [initState]
  | dots out dotdot _ _ _ _ => exact le_refl _
  | push out dotdot e _ _ ih =>
    unfold pushElem
    split <;> simp <;> omega

theorem Canon.rooted_spec {out : GoString} {dotdot : Nat}
    (h : Canon true out dotdot) : dotdot = 1 ∧ out.head? = some '/' := by
  induction h with
  | init => simp [initState]
  | dots out dotdot hr _ _ _ => simp at hr
  | push out dotdot e _ _ ih =>
    refine ⟨ih.1, ?_⟩
    unfold pushElem
    cases out with
    | nil => simp at ih
    | cons c rest =>
      have := ih.2
      split <;> simpa using this

theorem Canon.unrooted_head {out : GoString} {dotdot : Nat}
    (h : Canon false out dotdot) : out.head? ≠ some '/' := by
  induction h with
  | init => simp [initState]
  | dots out dotdot _ _ _ ih =>
    cases out with
    | nil => simp
    | cons c rest => simpa using ih
  | push out dotdot e _ he ih =>
    unfold pushElem
    cases out with
    | nil =>
      obtain ⟨h1, h2, _⟩ := he
      cases e with
      | nil => exact absurd rfl h1
      | cons c rest =>
        simp only [List.mem_cons, not_or] at h2
        simpa using fun h => h2.1 h.symm
    | cons c rest => simpa using ih

theorem Canon.rooted_length {out : GoString} {dotdot : Nat} (h : Canon true out dotdot) :
    1 ≤ out.length := by
  have := h.rooted_spec.2
  cases out with
  | nil => simp at this
  | cons c rest => simp

theorem Canon.ne_dot {rooted : Bool} {out : GoString} {dotdot : Nat}
    (h : Canon rooted out dotdot) : out ≠ ['.'] := by
  cases h with
  | init => cases rooted <;> simp [initState]
  | dots out dotdot _ _ _ =>
    intro h
    have := congrArg List.length h
    simp at this
  | push out dotdot e _ he =>
    intro h
    unfold pushElem at h
    split at h
    · have := congrArg List.length h
      have hpos : 0 < e.length := List.length_pos.mpr he.1
      simp at this
      omega
    · rename_i hsep
      cases rooted with
      | true =>
        rename_i hc
        have h1 := hc.rooted_spec.2
        cases out with
        | nil => simp at h1
        | cons c rest =>
          simp at h1
          subst h1
          simp at h
      | false =>
        simp at hsep
        subst hsep
        exact he.2.2.1 (by simpa using h)

theorem Canon.step {rooted : Bool} {out : GoString} {dotdot : Nat}
    (h : Canon rooted out dotdot) (e : GoString) (he : '/' ∉ e) :
    Canon rooted (stepElem rooted (out, dotdot) e).1 (stepElem rooted (out, dotdot) e).2 := by
  unfold stepElem
  by_cases h1 : e = [] ∨ e = ['.']
  · rw [if_pos h1]; exact h
  · rw [if_neg h1]
    by_cases h2 : e = ['.', '.']
    · rw [if_pos h2]
      by_cases hgt : out.length > dotdot
      · cases h with
        | init => cases rooted <;> simp [initState] at hgt
        | dots out0 dotdot0 _ _ _ => exact absurd hgt (lt_irrefl _)
        | push out0 dotdot e0 hc he0 =>
          have hr : rooted = true → dotdot = 1 ∧ 1 ≤ out0.length := by
            intro hr
            subst hr
            exact ⟨hc.rooted_spec.1, hc.rooted_length⟩
          rw [dotdotStep_pushElem rooted out0 e0 dotdot he0.1 he0.2.1 hc.dotdot_le hr]
          exact hc
      · have heq : out.length = dotdot := le_antisymm (not_lt.mp hgt) h.dotdot_le
        unfold dotdotStep
        simp only [if_neg hgt]
        cases rooted with
        | true => simpa using h
        | false =>
          simp only [if_true]
          exact Canon.dots out dotdot rfl h heq
    · rw [if_neg h2]
      have hn : Normal e := by
        simp only [not_or] at h1
        exact ⟨h1.1, he, h1.2, h2⟩
      exact Canon.push out dotdot e h hn

theorem Canon.steps {rooted : Bool} (es : List GoString) (hes : ∀ e ∈ es, '/' ∉ e) :
    ∀ (st : GoString × Nat), Canon rooted st.1 st.2 →
      Canon rooted (es.foldl (stepElem rooted) st).1
        (es.foldl (stepElem rooted) st).2 := by
  induction es with
  | nil => intro st h; exact h
  | cons e es ih =>
    intro st h
    rw [List.foldl_cons]
    exact ih (fun x hx => hes x (by simp [hx])) _ (h.step e (hes e (by simp)))

theorem Clean_eq (p : GoString) (hp : p ≠ []) : Clean p = finalize (cleanState p).1 := by
  unfold Clean cleanState finalize isRooted loopInput initState
  rw [if_neg hp]
  by_cases hr : p.head? = some '/'
  · have hlen : p.tail.length ≤ p.length := by simp
    simp only [hr, decide_True, if_true]
    rw [cleanLoop_eq_foldl true p.length p.tail ['/'] 1 hlen]
  · simp only [hr, decide_False, if_false, Bool.false_eq_true]
    rw [cleanLoop_eq_foldl false p.length p [] 0 (le_refl _)]

theorem cleanState_canon (p : GoString) :
    Canon (isRooted p) (cleanState p).1 (cleanState p).2 :=
  Canon.steps _ (splitSlash_no_slash _) _ Canon.init

theorem Canon.isRooted_eq {rooted : Bool} {out : GoString} {dotdot : Nat}
    (h : Canon rooted out dotdot) : isRooted out = rooted := by
  cases rooted with
  | true => simp [isRooted, h.rooted_spec.2]
  | false => simpa [isRooted] using h.unrooted_head

theorem Canon.eq_init_of_short {rooted : Bool} {out : GoString} {dotdot : Nat}
    (h : Canon rooted out dotdot)
    (hs : ¬ ((rooted = true ∧ out.length ≠ 1) ∨ (rooted = false ∧ out.length ≠ 0))) :
    (out, dotdot) = initState rooted := by
  cases rooted with
  | true =>
    have h1 := h.rooted_spec
    simp at hs
    cases out with
    | nil => simp at hs
    | cons c rest =>
      have hc : c = '/' := by simpa using h1.2
      have hrest : rest = [] := by simpa using hs
      simp [initState, hc, hrest, h1.1]
  | false =>
    have h1 := h.dotdot_le
    simp at hs
    subst hs
    simp at h1
    simp [initState, h1]

theorem pushElem_sep {rooted : Bool} {out e : GoString}
    (hsep : (rooted = true ∧ out.length ≠ 1) ∨ (rooted = false ∧ out.length ≠ 0)) :
    pushElem rooted out e = out ++ '/' :: e := by
  unfold pushElem
  rw [if_pos hsep]
  simp

theorem pushElem_nosep {rooted : Bool} {out e : GoString}
    (hsep : ¬ ((rooted = true ∧ out.length ≠ 1) ∨ (rooted = false ∧ out.length ≠ 0))) :
    pushElem rooted out e = out ++ e := by
  unfold pushElem
  rw [if_neg hsep]

/-- Reading a canonical buffer back through the loop rebuilds the same buffer. -/
theorem Canon.roundtrip {rooted : Bool} {out : GoString} {dotdot : Nat}
    (h : Canon rooted out dotdot) :
    (splitSlash (loopInput rooted out)).foldl (stepElem rooted) (initState rooted)
      = (out, dotdot) := by
  induction h with
  | init => cases rooted <;> simp [initState, loopInput, splitSlash, stepElem]
  | dots out dotdot hr hc hlen ih =>
    subst hr
    simp only [loopInput, Bool.false_eq_true, if_false] at ih ⊢
    have hstep : stepElem false (out, dotdot) ['.', '.'] =
        ((if out.length > 0 then out ++ ['/'] else out) ++ ['.', '.'],
         ((if out.length > 0 then out ++ ['/'] else out) ++ ['.', '.']).length) := by
      simp [stepElem, dotdotStep, hlen]
    by_cases hpos : out.length > 0
    · simp only [if_pos hpos]
      have : out ++ ['/'] ++ ['.', '.'] = out ++ '/' :: ['.', '.'] := by simp
      rw [this, splitSlash_append, List.foldl_append, ih,
        splitSlash_elem ['.', '.'] (by simp), List.foldl_cons, List.foldl_nil, hstep]
      simp [hpos]
    · have hnil : out = [] := by
        cases out with
        | nil => rfl
        | cons c rest => simp at hpos
      subst hnil
      have hd : dotdot = 0 := by simpa using hlen.symm
      subst hd
      simp [splitSlash, stepElem, dotdotStep, initState]
  | push out dotdot e hc he ih =>
    by_cases hsep : (rooted = true ∧ out.length ≠ 1) ∨ (rooted = false ∧ out.length ≠ 0)
    · have hpush : pushElem rooted out e = out ++ '/' :: e := pushElem_sep hsep
      have hin : loopInput rooted (out ++ '/' :: e) = loopInput rooted out ++ '/' :: e := by
        cases rooted with
        | true =>
          have := hc.rooted_length
          cases out with
          | nil => simp at this
          | cons c rest => simp [loopInput]
        | false => simp [loopInput]
      rw [hpush, hin, splitSlash_append, List.foldl_append, ih, splitSlash_elem e he.2.1,
        List.foldl_cons, List.foldl_nil, stepElem_normal _ _ _ he, hpush]
    · have hinit := hc.eq_init_of_short hsep
      have hpush : pushElem rooted out e = out ++ e := pushElem_nosep hsep
      have hin : loopInput rooted (out ++ e) = e := by
        cases rooted with
        | true =>
          simp [initState] at hinit
          simp [loopInput, hinit.1]
        | false =>
          simp [initState] at hinit
          simp [loopInput, hinit.1]
      rw [hpush, hin, splitSlash_elem e he.2.1, List.foldl_cons, List.foldl_nil, ← hinit,
        stepElem_normal _ _ _ he, hpush]

theorem Canon.clean_eq {rooted : Bool} {out : GoString} {dotdot : Nat}
    (h : Canon rooted out dotdot) (hne : out ≠ []) : Clean out = out := by
  rw [Clean_eq out hne]
  unfold cleanState
  rw [h.isRooted_eq, h.roundtrip]
  simp [finalize, hne]

theorem Clean_ne_nil (p : GoString) : Clean p ≠ [] := by
  by_cases hp : p = []
  · simp [Clean, hp]
  · rw [Clean_eq p hp]
    unfold finalize
    split
    · simp
    · rename_i h
      intro h2
      exact h (by simp [h2])

/-- Cleaning a cleaned path changes nothing. -/
theorem Clean_idem (p : GoString) : Clean (Clean p) = Clean p := by
  by_cases hp : p = []
  · subst hp
    decide
  · rw [Clean_eq p hp]
    unfold finalize
    split
    · decide
    · rename_i h
      exact (cleanState_canon p).clean_eq (fun h2 => h (by simp [h2]))

/-! ## Appending elements to a path -/

theorem isRooted_append {p : GoString} (hp : p ≠ []) (q : GoString) :
    isRooted (p ++ q) = isRooted p := by
  cases p with
  | nil => exact absurd rfl hp
  | cons c rest => simp [isRooted]

theorem loopInput_append {p : GoString} (hp : p ≠ []) (rooted : Bool) (q : GoString) :
    loopInput rooted (p ++ q) = loopInput rooted p ++ q := by
  cases p with
  | nil => exact absurd rfl hp
  | cons c rest => cases rooted <;> simp [loopInput]

/-- Cleaning a path extended by a separator and more elements continues the loop from the
state reached on the path. -/
theorem Clean_append {p : GoString} (hp : p ≠ []) (q : GoString) :
    Clean (p ++ '/' :: q) =
      finalize ((splitSlash q).foldl (stepElem (isRooted p)) (cleanState p)).1 := by
  rw [Clean_eq _ (by simp)]
  unfold cleanState
  rw [isRooted_append hp, loopInput_append hp, splitSlash_append, List.foldl_append]

theorem pushElem_ne_nil (rooted : Bool) (out : GoString) {e : GoString} (he : e ≠ []) :
    pushElem rooted out e ≠ [] := by
  unfold pushElem
  simp [he]

theorem finalize_of_ne_nil {out : GoString} (h : out ≠ []) : finalize out = out := by
  unfold finalize
  rw [if_neg]
  intro h2
  exact h (List.length_eq_zero.mp h2)

theorem Clean_append_elem {p : GoString} (hp : p ≠ []) {e : GoString} (he : Normal e) :
    Clean (p ++ '/' :: e) = pushElem (isRooted p) (cleanState p).1 e := by
  rw [Clean_append hp, splitSlash_elem e he.2.1, List.foldl_cons, List.foldl_nil,
    stepElem_normal _ _ _ he, finalize_of_ne_nil (pushElem_ne_nil _ _ he.1)]

theorem Clean_append_slash_elem {p : GoString} (hp : p ≠ []) {e : GoString} (he : Normal e) :
    Clean (p ++ '/' :: '/' :: e) = pushElem (isRooted p) (cleanState p).1 e := by
  rw [Clean_append hp, splitSlash_cons_slash, splitSlash_elem e he.2.1, List.foldl_cons,
    List.foldl_cons, List.foldl_nil, stepElem_nil,
    stepElem_normal _ _ _ he, finalize_of_ne_nil (pushElem_ne_nil _ _ he.1)]

theorem Clean_append_slash {p : GoString} (hp : p ≠ []) : Clean (p ++ ['/']) = Clean p := by
  rw [Clean_append hp, Clean_eq p hp]
  simp [splitSlash, stepElem]

theorem Clean_elem {e : GoString} (he : Normal e) : Clean e = e := by
  have h := (Canon.push _ _ e (Canon.init : Canon false _ _) he).clean_eq
    (pushElem_ne_nil _ _ he.1)
  simpa [pushElem, initState] using h

/-! ## `Dir` and `Base` of a cleaned path that ends in a copied element -/

theorem dirPart_append (pre e : GoString) (he : '/' ∉ e) :
    ((pre ++ '/' :: e).reverse.dropWhile (· ≠ '/')).reverse = pre ++ ['/'] := by
  have h1 : (pre ++ '/' :: e).reverse = e.reverse ++ '/' :: pre.reverse := by simp
  rw [h1, List.dropWhile_append_of_pos]
  · simp
  · intro a ha
    have : a ≠ '/' := fun h => he (by simpa [h] using ha)
    simpa using this

theorem dirPart_elem (e : GoString) (he : '/' ∉ e) :
    (e.reverse.dropWhile (· ≠ '/')).reverse = [] := by
  have h : ∀ a ∈ e.reverse, (fun c : Char => decide (c ≠ '/')) a = true := by
    intro a ha
    have : a ≠ '/' := fun h => he (by simpa [h] using ha)
    simpa using this
  have := @List.dropWhile_append_of_pos _ _ e.reverse [] h
  simp only [List.append_nil, List.dropWhile_nil] at this
  rw [this]
  rfl

theorem Dir_pushElem {rooted : Bool} {out : GoString} {dotdot : Nat}
    (h : Canon rooted out dotdot) {e : GoString} (he : Normal e) :
    Dir (pushElem rooted out e) = finalize out := by
  unfold Dir
  by_cases hsep : (rooted = true ∧ out.length ≠ 1) ∨ (rooted = false ∧ out.length ≠ 0)
  · have hne : out ≠ [] := by
      rcases hsep with ⟨hr, _⟩ | ⟨_, h0⟩
      · subst hr
        have := h.rooted_length
        intro h2
        simp [h2] at this
      · intro h2
        exact h0 (by simp [h2])
    rw [pushElem_sep hsep, dirPart_append _ _ he.2.1, Clean_append_slash hne, h.clean_eq hne,
      finalize_of_ne_nil hne]
  · have hinit := h.eq_init_of_short hsep
    rw [pushElem_nosep hsep]
    cases rooted with
    | true =>
      simp only [initState, if_true, Prod.mk.injEq] at hinit
      rw [hinit.1]
      have : (['/'] ++ e : GoString) = [] ++ '/' :: e := rfl
      rw [this, dirPart_append _ _ he.2.1]
      decide
    | false =>
      simp only [initState, Bool.false_eq_true, if_false, Prod.mk.injEq] at hinit
      rw [hinit.1, List.nil_append, dirPart_elem _ he.2.1]
      decide

theorem Base_elem {e : GoString} (he1 : e ≠ []) (he2 : '/' ∉ e) : Base e = e := by
  have hall : ∀ a ∈ e.reverse, a ≠ '/' := by
    intro a ha h
    exact he2 (by simpa [h] using ha)
  have hrev : e.reverse ≠ [] := by simpa using he1
  unfold Base
  rw [if_neg he1]
  have h1 : e.reverse.dropWhile (· = '/') = e.reverse := by
    cases h : e.reverse with
    | nil => exact absurd h hrev
    | cons c rest =>
      have : c ≠ '/' := hall c (by simp [h])
      simp [List.dropWhile_cons, this]
  have h2 : e.reverse.takeWhile (· ≠ '/') = e.reverse := by
    rw [List.takeWhile_eq_self_iff]
    intro a ha
    simpa using hall a ha
  simp only [h1, List.reverse_reverse, h2, he1, if_false]

theorem Base_append_elem (pre : GoString) {e : GoString} (he1 : e ≠ []) (he2 : '/' ∉ e) :
    Base (pre ++ '/' :: e) = e := by
  have hall : ∀ a ∈ e.reverse, a ≠ '/' := by
    intro a ha h
    exact he2 (by simpa [h] using ha)
  have hrev : e.reverse ≠ [] := by simpa using he1
  unfold Base
  rw [if_neg (by simp)]
  have h0 : (pre ++ '/' :: e).reverse = e.reverse ++ '/' :: pre.reverse := by simp
  have h1 : (pre ++ '/' :: e).reverse.dropWhile (· = '/') = (pre ++ '/' :: e).reverse := by
    rw [h0]
    cases h : e.reverse with
    | nil => exact absurd h hrev
    | cons c rest =>
      have : c ≠ '/' := hall c (by simp [h])
      simp [List.dropWhile_cons, this]
  have h2 : (pre ++ '/' :: e).reverse.takeWhile (· ≠ '/') = e.reverse := by
    rw [h0, List.takeWhile_append_of_pos]
    · simp
    · intro a ha
      simpa using hall a ha
  simp only [h1, List.reverse_reverse, h2, he1, if_false]

theorem Base_pushElem (rooted : Bool) {out : GoString} {dotdot : Nat}
    (h : Canon rooted out dotdot) {e : GoString} (he : Normal e) :
    Base (pushElem rooted out e) = e := by
  by_cases hsep : (rooted = true ∧ out.length ≠ 1) ∨ (rooted = false ∧ out.length ≠ 0)
  · rw [pushElem_sep hsep]
    exact Base_append_elem _ he.1 he.2.1
  · have hinit := h.eq_init_of_short hsep
    rw [pushElem_nosep hsep]
    cases rooted with
    | true =>
      simp only [initState, if_true, Prod.mk.injEq] at hinit
      rw [hinit.1]
      exact Base_append_elem [] he.1 he.2.1
    | false =>
      simp only [initState, Bool.false_eq_true, if_false, Prod.mk.injEq] at hinit
      rw [hinit.1, List.nil_append]
      exact Base_elem he.1 he.2.1

/-! ## The image path -/

theorem Base_cases (name : GoString) :
    Base name = ['/'] ∨ (Base name ≠ [] ∧ '/' ∉ Base name) := by
  unfold Base
  by_cases h : name = []
  · right
    simp [h]
  · rw [if_neg h]
    simp only
    split
    · left; rfl
    · rename_i h2
      right
      refine ⟨h2, ?_⟩
      intro hmem
      rw [List.mem_reverse] at hmem
      have := List.mem_takeWhile_imp hmem
      simp at this

theorem normal_dot_tag {h : GoString} (hh : PlainTag h) : Normal ('.' :: h) := by
  obtain ⟨h1, h2, h3⟩ := hh
  refine ⟨by simp, ?_, ?_, ?_⟩
  · simp only [List.mem_cons, not_or]
    exact ⟨by decide, h2⟩
  · simpa using h1
  · simpa using h3

theorem normal_base_tag {b h : GoString} (hb1 : b ≠ []) (hb2 : '/' ∉ b) (hh : PlainTag h) :
    Normal (b ++ '.' :: h) := by
  obtain ⟨h1, h2, h3⟩ := hh
  have hlb : 0 < b.length := List.length_pos.mpr hb1
  have hlh : 0 < h.length := List.length_pos.mpr h1
  refine ⟨by simp, ?_, ?_, ?_⟩
  · simp only [List.mem_append, List.mem_cons, not_or]
    exact ⟨hb2, by decide, h2⟩
  · intro h
    have := congrArg List.length h
    simp at this
    omega
  · intro h
    have := congrArg List.length h
    simp at this
    omega

theorem intercalate_two (a b : GoString) : List.intercalate ['/'] [a, b] = a ++ '/' :: b := by
  simp [List.intercalate, List.intersperse]

theorem intercalate_three (a b c : GoString) :
    List.intercalate ['/'] [a, b, c] = a ++ '/' :: b ++ '/' :: c := by
  simp [List.intercalate, List.intersperse]

theorem Join_two (root name : GoString) (hne : ¬ (root = [] ∧ name = [])) :
    joined root name ≠ [] ∧ Join [root, name] = Clean (joined root name) := by
  unfold joined
  by_cases hr : root = []
  · have hn : name ≠ [] := fun h => hne ⟨hr, h⟩
    simp [Join, hr, hn, List.intercalate, List.intersperse]
  · simp [Join, hr, intercalate_two]

theorem Join_three (root name file : GoString) (hne : ¬ (root = [] ∧ name = [])) :
    Join [root, name, file] = Clean (joined root name ++ '/' :: file) := by
  unfold joined
  by_cases hr : root = []
  · have hn : name ≠ [] := fun h => hne ⟨hr, h⟩
    simp [Join, hr, hn, intercalate_two]
  · simp [Join, hr, intercalate_three]

/-- Shape of the image path: the cleaned join of root and name, extended by one copied
element that ends in `.` and the hypervisor tag. -/
theorem ImagePath_shape (root name h : GoString) (hne : ¬ (root = [] ∧ name = []))
    (hh : PlainTag h) :
    ∃ e b, Normal e ∧ e = b ++ '.' :: h ∧
      Repo.ImagePath ⟨root⟩ h name =
        pushElem (isRooted (joined root name)) (cleanState (joined root name)).1 e := by
  have hP := (Join_two root name hne).1
  unfold Repo.ImagePath
  rw [Join_three root name _ hne]
  rcases Base_cases name with hb | ⟨hb1, hb2⟩
  · refine ⟨'.' :: h, [], normal_dot_tag hh, rfl, ?_⟩
    rw [hb]
    exact Clean_append_slash_elem hP (normal_dot_tag hh)
  · refine ⟨Base name ++ '.' :: h, Base name, normal_base_tag hb1 hb2 hh, rfl, ?_⟩
    have : Base name ++ ['.'] ++ h = Base name ++ '.' :: h := by simp
    rw [this]
    exact Clean_append_elem hP (normal_base_tag hb1 hb2 hh)

theorem Join_two_eq (root name : GoString) (hne : ¬ (root = [] ∧ name = [])) :
    Join [root, name] = finalize (cleanState (joined root name)).1 := by
  obtain ⟨h1, h2⟩ := Join_two root name hne
  rw [h2, Clean_eq _ h1]

theorem Dir_ImagePath (root name h : GoString) (hne : ¬ (root = [] ∧ name = []))
    (hh : PlainTag h) :
    Dir (Repo.ImagePath ⟨root⟩ h name) = Join [root, name] := by
  obtain ⟨e, b, he, _, hpath⟩ := ImagePath_shape root name h hne hh
  rw [hpath, Dir_pushElem (cleanState_canon _) he, Join_two_eq root name hne]

theorem pushElem_eq_child {rooted : Bool} {out : GoString} {dotdot : Nat}
    (h : Canon rooted out dotdot) (e : GoString) :
    pushElem rooted out e = child (finalize out) e := by
  by_cases hsep : (rooted = true ∧ out.length ≠ 1) ∨ (rooted = false ∧ out.length ≠ 0)
  · have hne : out ≠ [] := by
      rcases hsep with ⟨hr, _⟩ | ⟨_, h0⟩
      · subst hr
        have := h.rooted_length
        intro h2
        simp [h2] at this
      · intro h2
        exact h0 (by simp [h2])
    have hslash : out ≠ ['/'] := by
      intro h2
      rcases hsep with ⟨_, h1⟩ | ⟨hr, _⟩
      · exact h1 (by simp [h2])
      · subst hr
        exact h.unrooted_head (by simp [h2])
    rw [pushElem_sep hsep, finalize_of_ne_nil hne]
    unfold child
    rw [if_neg h.ne_dot, if_neg hslash]
  · have hinit := h.eq_init_of_short hsep
    rw [pushElem_nosep hsep]
    cases rooted with
    | true =>
      simp only [initState, if_true, Prod.mk.injEq] at hinit
      rw [hinit.1]
      rfl
    | false =>
      simp only [initState, Bool.false_eq_true, if_false, Prod.mk.injEq] at hinit
      rw [hinit.1]
      rfl

theorem ImagePath_eq_child (root name h : GoString) (hne : ¬ (root = [] ∧ name = []))
    (hh : PlainTag h) :
    ∃ e b, Normal e ∧ e = b ++ '.' :: h ∧
      Repo.ImagePath ⟨root⟩ h name = child (Join [root, name]) e := by
  obtain ⟨e, b, he, hb, hpath⟩ := ImagePath_shape root name h hne hh
  exact ⟨e, b, he, hb, by
    rw [hpath, pushElem_eq_child (cleanState_canon _), Join_two_eq root name hne]⟩

theorem Base_ImagePath (root name h : GoString) (hne : ¬ (root = [] ∧ name = []))
    (hh : PlainTag h) :
    ∃ b, Base (Repo.ImagePath ⟨root⟩ h name) = b ++ '.' :: h := by
  obtain ⟨e, b, he, hb, hpath⟩ := ImagePath_shape root name h hne hh
  exact ⟨b, by rw [hpath, Base_pushElem _ (cleanState_canon _) he, hb]⟩

/-! ## Listing -/

theorem listEntry_foldl {σ : Type} (sys : Sys σ) (r : Repo) (n : FileInfo) (fs : σ) :
    ∀ (images : List FileInfo) (out : List GoString) (a b : Nat),
      images.foldl (listEntry sys r n) (⟨fs, out⟩, a, b) =
        (⟨fs, out ++ ((images.filter (fun i => i.IsDir)).map (specImageLine sys r fs n)).map
            (fun l => l ++ ['\n'])⟩,
          a + (images.filter (fun i => i.IsDir)).length,
          b + (images.filter (fun i => !i.IsDir)).length) := by
  intro images
  induction images with
  | nil => intro out a b; simp
  | cons i rest ih =>
    intro out a b
    rw [List.foldl_cons]
    by_cases hi : i.IsDir = true
    · cases hinfo : sys.MakeFileInfo fs r.Path n.Name i.Name with
      | none =>
        simp only [listEntry, hi, if_true, hinfo, World.Println]
        rw [ih]
        simp [hi, specImageLine, hinfo]
        omega
      | some info =>
        simp only [listEntry, hi, if_true, hinfo, World.Println]
        rw [ih]
        simp [hi, specImageLine, hinfo]
        omega
    · simp only [listEntry, hi, if_false, Bool.false_eq_true]
      rw [ih]
      simp [hi]
      omega

theorem listNamespace_eq {σ : Type} (sys : Sys σ) (r : Repo) (fs : σ) (out : List GoString)
    (n : FileInfo) :
    listNamespace sys r ⟨fs, out⟩ n =
      ⟨fs, out ++ (specNamespaceLines sys r fs n).map (fun l => l ++ ['\n'])⟩ := by
  unfold listNamespace specNamespaceLines readDirOrEmpty
  simp only
  rw [listEntry_foldl]
  simp only [Nat.zero_add]
  split
  · simp [World.Println]
  · simp

theorem listNamespace_foldl {σ : Type} (sys : Sys σ) (r : Repo) (fs : σ) :
    ∀ (namespaces : List FileInfo) (out : List GoString),
      namespaces.foldl (listNamespace sys r) ⟨fs, out⟩ =
        ⟨fs, out ++ (namespaces.flatMap (specNamespaceLines sys r fs)).map (fun l => l ++ ['\n'])⟩ := by
  intro namespaces
  induction namespaces with
  | nil => intro out; simp
  | cons n rest ih =>
    intro out
    rw [List.foldl_cons, listNamespace_eq, ih]
    simp

theorem ListImages_eq {σ : Type} (sys : Sys σ) (r : Repo) (w : World σ) :
    r.ListImages sys w =
      ⟨w.fs, w.stdout ++ (specListingLines sys r w.fs).map (fun l => l ++ ['\n'])⟩ := by
  unfold Repo.ListImages specListingLines readDirOrEmpty
  simp only [World.Println]
  rw [listNamespace_foldl]
  simp

/-! ## Paths of an import -/

theorem plainTag_of_mem {h : GoString} (hh : h ∈ hypervisorTags) : PlainTag h := by
  simp only [hypervisorTags, List.mem_cons, List.mem_singleton, List.not_mem_nil, or_false] at hh
  rcases hh with rfl | rfl | rfl <;> exact ⟨by decide, by decide, by decide⟩

theorem hypervisorFor_mem {format : ImageFormat} {h : GoString}
    (hf : hypervisorFor format = some h) : h ∈ hypervisorTags := by
  cases format <;> simp [hypervisorFor] at hf <;> subst hf <;> decide

theorem normal_dotdot_tag {h : GoString} (hh : PlainTag h) : Normal ('.' :: '.' :: h) := by
  obtain ⟨h1, h2, _⟩ := hh
  refine ⟨by simp, ?_, by simp, ?_⟩
  · simp only [List.mem_cons, not_or]
    exact ⟨by decide, by decide, h2⟩
  · simpa using h1

theorem ImagePath_empty (h : GoString) (hh : PlainTag h) :
    Repo.ImagePath ⟨[]⟩ h [] = '.' :: '.' :: h := by
  have hn := normal_dotdot_tag hh
  have : Repo.ImagePath ⟨[]⟩ h [] = Clean ('.' :: '.' :: h) := by
    simp [Repo.ImagePath, Join, Base, List.intercalate, List.intersperse]
  rw [this, Clean_elem hn]

theorem Base_ImagePath_all (root name h : GoString) (hh : PlainTag h) :
    ∃ b, Base (Repo.ImagePath ⟨root⟩ h name) = b ++ '.' :: h := by
  by_cases hne : root = [] ∧ name = []
  · obtain ⟨rfl, rfl⟩ := hne
    have hn := normal_dotdot_tag hh
    exact ⟨['.'], by rw [ImagePath_empty h hh, Base_elem hn.1 hn.2.1]; rfl⟩
  · exact Base_ImagePath root name h hne hh

theorem Join_dir_elem {dir e : GoString} (hd : dir ≠ []) (he : Normal e) :
    Join [dir, e] = pushElem (isRooted dir) (cleanState dir).1 e := by
  have : Join [dir, e] = Clean (dir ++ '/' :: e) := by
    simp [Join, hd, intercalate_two]
  rw [this, Clean_append_elem hd he]

theorem Base_Join_elem {dir e : GoString} (hd : dir ≠ []) (he : Normal e) :
    Base (Join [dir, e]) = e := by
  rw [Join_dir_elem hd he, Base_pushElem _ (cleanState_canon _) he]

theorem Dir_ne_nil (p : GoString) : Dir p ≠ [] := Clean_ne_nil _

theorem tag_ne_index {b h : GoString} (hh : h ∈ hypervisorTags) :
    b ++ '.' :: h ≠ "index.yaml".toList := by
  intro heq
  have hrev := congrArg List.reverse heq
  simp only [hypervisorTags, List.mem_cons, List.mem_singleton, List.not_mem_nil, or_false] at hh
  rcases hh with rfl | rfl | rfl <;> simp at hrev

/-- The metadata file of an import is never the payload file. -/
theorem index_ne_payload (r : Repo) (name h : GoString) (hh : h ∈ hypervisorTags) :
    r.ImagePath h name ≠ Join [Dir (r.ImagePath h name), "index.yaml".toList] := by
  intro heq
  obtain ⟨b, hb⟩ := Base_ImagePath_all r.Path name h (plainTag_of_mem hh)
  have h2 := congrArg Base heq
  rw [Base_Join_elem (Dir_ne_nil _) (by decide), hb] at h2
  exact tag_ne_index hh h2

/-! ## Import -/

/-- What a successful import did, call by call. -/
theorem ImportImage_ok {σ : Type} (sys : Sys σ) (r : Repo)
    (name file version created description build : GoString) (w w2 : World σ)
    (himp : r.ImportImage sys name file version created description build w = (none, w2)) :
    ∃ format h fs2 out fs3 value,
      sys.Probe w.fs file = .ok format ∧ hypervisorFor format = some h ∧
      IsNotExist (errOf (sys.Stat w.fs file)) = false ∧
      sys.MkdirAll w.fs (Dir (r.ImagePath h name)) 0o775 = (none, fs2) ∧
      sys.Output fs2 (sys.CopyFile file (r.ImagePath h name)) = (.ok out, fs3) ∧
      sys.Marshal ⟨"1".toList, version, created, description, build⟩ = .ok value ∧
      sys.WriteFile fs3 (Join [Dir (r.ImagePath h name), "index.yaml".toList]) value 0o644
        = (none, w2.fs) ∧
      w2.stdout = w.stdout ++ ["Importing ".toList ++ name ++ "...\n".toList] := by
  unfold Repo.ImportImage at himp
  split at himp
  · simp at himp
  · rename_i format hprobe
    split at himp
    · simp at himp
    · rename_i h hfor
      split at himp
      · simp at himp
      · rename_i hstat
        simp only at himp
        split at himp
        · simp at himp
        · rename_i fs2 hmk
          split at himp
          · simp at himp
          · rename_i out fs3 hcp
            split at himp
            · simp at himp
            · rename_i value hval
              split at himp
              · simp at himp
              · rename_i fs4 hwr
                simp only [Prod.mk.injEq, true_and] at himp
                subst himp
                exact ⟨format, h, fs2, out, fs3, value, hprobe, hfor, by simpa using hstat,
                  hmk, hcp, hval, hwr, rfl⟩

theorem Join_clean_elem (p : GoString) {e : GoString} (he : Normal e) :
    Join [Clean p, e] = child (Clean p) e := by
  rw [Join_dir_elem (Clean_ne_nil p) he, pushElem_eq_child (cleanState_canon _),
    ← Clean_eq _ (Clean_ne_nil p), Clean_idem]

theorem child_of_plain {dir : GoString} (h1 : dir ≠ ['.']) (h2 : dir ≠ ['/']) (e : GoString) :
    child dir e = dir ++ '/' :: e := by
  unfold child
  rw [if_neg h1, if_neg h2]

theorem ImagePath_ns_app (root : GoString) (hclean : Clean root = root)
    (h1 : root ≠ ['/']) (h2 : root ≠ ['.']) :
    Repo.ImagePath ⟨root⟩ "qemu".toList "ns/app".toList =
      root ++ "/ns/app/app.qemu".toList := by
  have hne : root ≠ [] := fun h => Clean_ne_nil root (by rw [hclean, h])
  have hpath : Repo.ImagePath ⟨root⟩ "qemu".toList "ns/app".toList =
      Clean (root ++ '/' :: "ns/app/app.qemu".toList) := by
    have hb : Base "ns/app".toList = "app".toList := by decide
    unfold Repo.ImagePath
    rw [hb]
    simp [Join, hne, List.intercalate, List.intersperse]
  have hsplit : splitSlash "ns/app/app.qemu".toList =
      ["ns".toList, "app".toList, "app.qemu".toList] := by decide
  have hc0 := cleanState_canon root
  have hc1 := Canon.push _ _ "ns".toList hc0 (by decide)
  have hc2 := Canon.push _ _ "app".toList hc1 (by decide)
  have hfin : finalize (cleanState root).1 = root := by
    rw [← Clean_eq root hne, hclean]
  rw [hpath, Clean_append hne, hsplit]
  simp only [List.foldl_cons, List.foldl_nil]
  rw [stepElem_normal _ _ _ (by decide), stepElem_normal _ _ _ (by decide),
    stepElem_normal _ _ _ (by decide)]
  simp only
  rw [finalize_of_ne_nil (pushElem_ne_nil _ _ (by decide)),
    pushElem_eq_child hc2, finalize_of_ne_nil (pushElem_ne_nil _ _ (by decide)),
    pushElem_eq_child hc1, finalize_of_ne_nil (pushElem_ne_nil _ _ (by decide)),
    pushElem_eq_child hc0, hfin, child_of_plain h2 h1]
  have hlen : ∀ (a b : GoString), 2 ≤ b.length → a ++ b ≠ ['.'] ∧ a ++ b ≠ ['/'] := by
    intro a b hb
    constructor <;>
    · intro h
      have := congrArg List.length h
      simp at this
      omega
  have e1 := hlen root ('/' :: "ns".toList) (by decide)
  rw [child_of_plain e1.1 e1.2]
  have e2 := hlen (root ++ '/' :: "ns".toList) ('/' :: "app".toList) (by decide)
  rw [child_of_plain e2.1 e2.2]
  simp

/-! ## The in-memory file system keeps the laws -/

theorem startsWith_append (x y : GoString) : startsWith x (x ++ y) = true := by
  induction x with
  | nil => cases y <;> simp [startsWith]
  | cons a rest ih => simp [startsWith, ih]

theorem startsWith_length {x y : GoString} (h : startsWith x y = true) :
    x.length ≤ y.length := by
  induction x generalizing y with
  | nil => simp
  | cons a rest ih =>
    cases y with
    | nil => simp [startsWith] at h
    | cons b bs =>
      simp only [startsWith] at h
      split at h
      · have := ih h
        simp
        omega
      · simp at h

theorem mem_ancestorsAux (pre : GoString) :
    ∀ (x a : GoString), a ∈ ancestorsAux pre x ↔
      ∃ y z, x = y ++ '/' :: z ∧ a = pre ++ y ∧ pre ++ y ≠ [] := by
  intro x
  induction x generalizing pre with
  | nil =>
    intro a
    simp [ancestorsAux]
  | cons c rest ih =>
    intro a
    have hrec : a ∈ ancestorsAux (pre ++ [c]) rest ↔
        ∃ y z, c :: rest = (c :: y) ++ '/' :: z ∧ a = pre ++ c :: y ∧ pre ++ c :: y ≠ [] := by
      rw [ih]
      constructor
      · rintro ⟨y, z, h1, h2, h3⟩
        exact ⟨y, z, by simp [h1], by simpa using h2, by simp⟩
      · rintro ⟨y, z, h1, h2, _⟩
        exact ⟨y, z, by simpa using h1, by simpa using h2, by simp⟩
    simp only [ancestorsAux]
    by_cases hc : c = '/' ∧ pre ≠ []
    · rw [if_pos hc, List.mem_cons, hrec]
      constructor
      · rintro (h | ⟨y, z, h1, h2, h3⟩)
        · exact ⟨[], rest, by simp [hc.1], by simp [h], by simpa using hc.2⟩
        · exact ⟨c :: y, z, h1, h2, h3⟩
      · rintro ⟨y, z, h1, h2, h3⟩
        cases y with
        | nil => left; simpa using h2
        | cons d y2 =>
          right
          have hd : c = d := by
            simp at h1
            exact h1.1
          subst hd
          exact ⟨y2, z, h1, h2, h3⟩
    · rw [if_neg hc, hrec]
      constructor
      · rintro ⟨y, z, h1, h2, h3⟩
        exact ⟨c :: y, z, h1, h2, h3⟩
      · rintro ⟨y, z, h1, h2, h3⟩
        cases y with
        | nil =>
          exfalso
          apply hc
          simp at h1 h3
          exact ⟨h1.1, h3⟩
        | cons d y2 =>
          have hd : c = d := by
            simp at h1
            exact h1.1
          subst hd
          exact ⟨y2, z, h1, h2, h3⟩

theorem mem_ancestors {a q : GoString} :
    a ∈ ancestors q ↔ a ≠ [] ∧ ∃ z, q = a ++ '/' :: z := by
  unfold ancestors
  rw [mem_ancestorsAux]
  constructor
  · rintro ⟨y, z, h1, h2, h3⟩
    simp only [List.nil_append] at h2 h3
    subst h2
    exact ⟨h3, z, h1⟩
  · rintro ⟨h1, z, h2⟩
    exact ⟨a, z, h2, by simp, by simpa using h1⟩

theorem ancestors_trans {a b q : GoString} (hb : b ∈ ancestors a) (ha : a ∈ ancestors q) :
    b ∈ ancestors q := by
  rw [mem_ancestors] at hb ha ⊢
  obtain ⟨hb1, z1, hz1⟩ := hb
  obtain ⟨_, z2, hz2⟩ := ha
  exact ⟨hb1, z1 ++ '/' :: z2, by rw [hz2, hz1]; simp⟩

theorem ancestors_length {a q : GoString} (ha : a ∈ ancestors q) : a.length < q.length := by
  rw [mem_ancestors] at ha
  obtain ⟨_, z, hz⟩ := ha
  rw [hz]
  simp

theorem ancestors_ne {a q : GoString} (ha : a ∈ ancestors q) : a ≠ q := by
  intro h
  have := ancestors_length ha
  rw [h] at this
  exact lt_irrefl _ this

theorem mem_ancestors_child {p e a : GoString} (hp : p ≠ []) (he : '/' ∉ e) :
    a ∈ ancestors (p ++ '/' :: e) ↔ a ∈ ancestors p ∨ a = p := by
  rw [mem_ancestors, mem_ancestors]
  constructor
  · rintro ⟨ha, z, hz⟩
    rw [List.append_eq_append_iff] at hz
    rcases hz with ⟨a2, h1, h2⟩ | ⟨c2, h1, h2⟩
    · cases a2 with
      | nil => right; simpa using h1
      | cons d a3 =>
        exfalso
        apply he
        simp at h2
        rw [h2.2]
        simp
    · cases c2 with
      | nil => right; simpa using h1.symm
      | cons d c3 =>
        have hd : d = '/' := by
          simp at h2
          exact h2.1.symm
        subst hd
        left
        exact ⟨ha, c3, h1⟩
  · rintro (⟨ha, z, hz⟩ | rfl)
    · exact ⟨ha, z ++ '/' :: e, by rw [hz]; simp⟩
    · exact ⟨hp, e, rfl⟩

/-- A path resolves to a node exactly when it is not empty, may be accessed, every ancestor
is a directory and the path holds the node. -/
theorem MemFS.lookup_ok_iff (s : MemFS) (p : GoString) (n : Node) :
    s.lookup p = .ok n ↔
      p ≠ [] ∧ s.denied p = false ∧ (∀ a ∈ ancestors p, s.node a = some .dir) ∧
        s.node p = some n := by
  unfold MemFS.lookup
  by_cases hp : p = []
  · simp [hp]
  · rw [if_neg hp]
    by_cases hd : s.denied p = true
    · simp [hd]
    · rw [if_neg hd]
      cases hf : (ancestors p).find? (fun a => decide (s.node a ≠ some .dir)) with
      | some a =>
        have hmem := List.mem_of_find?_eq_some hf
        have hpred := List.find?_some hf
        have hna : s.node a ≠ some .dir := by simpa using hpred
        have hfalse : ¬ (∀ a ∈ ancestors p, s.node a = some .dir) := fun h => hna (h a hmem)
        constructor
        · intro h
          exfalso
          dsimp only at h
          split at h <;> simp at h
        · rintro ⟨_, _, h, _⟩
          exact absurd h hfalse
      | none =>
        have hall : ∀ a ∈ ancestors p, s.node a = some .dir := by
          intro a ha
          have := List.find?_eq_none.mp hf a ha
          simpa using this
        cases hn : s.node p with
        | none => simp [hp]
        | some m =>
          simp only [Except.ok.injEq, Option.some.injEq]
          constructor
          · intro h
            exact ⟨hp, by simpa using hd, hall, h⟩
          · rintro ⟨_, _, _, h⟩
            exact h

theorem MemFS.Contents_eq_some (s : MemFS) (p : GoString) (b : Bytes) :
    s.Contents p = some b ↔ s.lookup p = .ok (.file b) := by
  unfold MemFS.Contents
  cases h : s.lookup p with
  | error e => simp
  | ok n => cases n <;> simp

theorem MemFS.Contents_congr (s s2 : MemFS) (q : GoString)
    (h : ∀ b, s2.lookup q = .ok (.file b) ↔ s.lookup q = .ok (.file b)) :
    s2.Contents q = s.Contents q := by
  apply Option.ext
  intro b
  rw [Option.mem_def, Option.mem_def, MemFS.Contents_eq_some, MemFS.Contents_eq_some]
  exact h b

theorem memSys_StatLaw : memSys.StatLaw := by
  intro fs p b h
  simp only [memSys, MemFS.Contents] at h
  simp only [memSys, MemFS.Stat]
  split at h
  · rename_i b2 hl
    rw [hl]
    exact ⟨_, rfl⟩
  · simp at h

theorem memSys_EmptyPathLaw : memSys.EmptyPathLaw := by
  intro fs
  simp [memSys, MemFS.Stat, MemFS.lookup, errOf, IsNotExist]

theorem memSys_MkdirLaw : memSys.MkdirLaw := by
  intro fs p perm q
  simp only [memSys, MemFS.MkdirAll]
  split
  · rfl
  · split
    · rfl
    · split
      · rfl
      · apply MemFS.Contents_congr
        intro b
        rw [MemFS.lookup_ok_iff, MemFS.lookup_ok_iff]
        simp only
        constructor
        · rintro ⟨h1, h2, h3, h4⟩
          have hq : ¬ (q ∈ ancestors p ++ [p] ∧ fs.node q = none) := by
            intro hc
            rw [if_pos hc] at h4
            simp at h4
          rw [if_neg hq] at h4
          have hany : ¬ ((ancestors q).any
              (fun a => decide (a ∈ ancestors p ++ [p] ∧ fs.node a = none)) = true) := by
            intro hc
            rw [if_pos hc] at h4
            simp at h4
          rw [if_neg hany] at h4
          refine ⟨h1, h2, ?_, h4⟩
          intro a ha
          have hnew : ¬ (a ∈ ancestors p ++ [p] ∧ fs.node a = none) := by
            intro hc
            apply hany
            rw [List.any_eq_true]
            exact ⟨a, ha, by simpa using hc⟩
          have hany2 : ¬ ((ancestors a).any
              (fun x => decide (x ∈ ancestors p ++ [p] ∧ fs.node x = none)) = true) := by
            intro hc
            apply hany
            rw [List.any_eq_true] at hc ⊢
            obtain ⟨x, hx, hx2⟩ := hc
            exact ⟨x, ancestors_trans hx ha, hx2⟩
          have := h3 a ha
          rw [if_neg hnew, if_neg hany2] at this
          exact this
        · rintro ⟨h1, h2, h3, h4⟩
          have hnone : ∀ a ∈ ancestors q,
              ¬ (a ∈ ancestors p ++ [p] ∧ fs.node a = none) := by
            intro a ha hc
            have := h3 a ha
            rw [hc.2] at this
            simp at this
          have hanyq : ∀ x, (∀ a ∈ ancestors x, a ∈ ancestors q) →
              ¬ ((ancestors x).any
                (fun a => decide (a ∈ ancestors p ++ [p] ∧ fs.node a = none)) = true) := by
            intro x hx hc
            rw [List.any_eq_true] at hc
            obtain ⟨a, ha, ha2⟩ := hc
            exact hnone a (hx a ha) (by simpa using ha2)
          refine ⟨h1, h2, ?_, ?_⟩
          · intro a ha
            rw [if_neg (hnone a ha), if_neg (hanyq a (fun x hx => ancestors_trans hx ha))]
            exact h3 a ha
          · have hq : ¬ (q ∈ ancestors p ++ [p] ∧ fs.node q = none) := by
              intro hc
              rw [hc.2] at h4
              simp at h4
            rw [if_neg hq, if_neg (hanyq q (fun x hx => hx))]
            exact h4

theorem MemFS.writeAt_ok (s s2 : MemFS) (p : GoString) (b : Bytes)
    (h : s.writeAt p b = (none, s2)) :
    s2.Contents p = some b ∧ ∀ q, q ≠ p → s2.Contents q = s.Contents q := by
  unfold MemFS.writeAt at h
  split at h
  · simp at h
  · rename_i hp
    split at h
    · simp at h
    · rename_i hd
      split at h
      · split at h <;> simp at h
      · rename_i hf
        have hall : ∀ a ∈ ancestors p, s.node a = some .dir := by
          intro a ha
          have := List.find?_eq_none.mp hf a ha
          simpa using this
        split at h
        · simp at h
        · rename_i hnd
          simp only [Prod.mk.injEq, true_and] at h
          subst h
          constructor
          · rw [MemFS.Contents_eq_some, MemFS.lookup_ok_iff]
            refine ⟨hp, by simpa using hd, ?_, by simp⟩
            intro a ha
            simp only
            rw [if_neg (ancestors_ne ha)]
            exact hall a ha
          · intro q hq
            apply MemFS.Contents_congr
            intro c
            rw [MemFS.lookup_ok_iff, MemFS.lookup_ok_iff]
            simp only
            by_cases hpq : p ∈ ancestors q
            · constructor
              · rintro ⟨_, _, h3, _⟩
                have := h3 p hpq
                simp at this
              · rintro ⟨_, _, h3, _⟩
                have := h3 p hpq
                exact absurd this (hnd · )
            · have hanc : ∀ a ∈ ancestors q, a ≠ p := by
                intro a ha hap
                exact hpq (hap ▸ ha)
              constructor
              · rintro ⟨h1, h2, h3, h4⟩
                refine ⟨h1, h2, ?_, by simpa [hq] using h4⟩
                intro a ha
                have := h3 a ha
                rw [if_neg (hanc a ha)] at this
                exact this
              · rintro ⟨h1, h2, h3, h4⟩
                refine ⟨h1, h2, ?_, by simpa [hq] using h4⟩
                intro a ha
                rw [if_neg (hanc a ha)]
                exact h3 a ha

theorem memSys_WriteLaw : memSys.WriteLaw := by
  intro fs p v perm fs2 h
  exact MemFS.writeAt_ok fs fs2 p v h

theorem memSys_CopyLaw : memSys.CopyLaw := by
  intro fs src dst out fs2 h
  simp only [memSys, Command, MemFS.Output, if_true, MemFS.cp] at h
  split at h
  · simp at h
  · rename_i b hb
    split at h
    · rename_i s2 hw
      simp only [Prod.mk.injEq] at h
      obtain ⟨_, rfl⟩ := h
      have := MemFS.writeAt_ok fs s2 dst b hw
      simp only [memSys]
      rw [hb, this.1]
      simp
    · simp at h

theorem MemFS.Stat_ok (s : MemFS) (p : GoString) (info : FileInfo)
    (h : s.Stat p = .ok info) : ∃ n, s.lookup p = .ok n := by
  unfold MemFS.Stat at h
  split at h
  · rename_i b hl
    exact ⟨_, hl⟩
  · rename_i hl
    exact ⟨_, hl⟩
  · simp at h

theorem MemFS.lookup_gone (s : MemFS) (q a : GoString) (hq : q ≠ [])
    (hd : s.denied q = false) (ha : a ∈ ancestors q ∨ a = q) (hnone : s.node a = none)
    (hdirs : ∀ x ∈ ancestors q, x ≠ a → s.node x = some .dir) :
    s.lookup q = .error (.pathError .ENOENT) := by
  unfold MemFS.lookup
  rw [if_neg hq, if_neg (by simp [hd])]
  cases hf : (ancestors q).find? (fun x => decide (s.node x ≠ some .dir)) with
  | some x =>
    have hmem := List.mem_of_find?_eq_some hf
    have hpred := List.find?_some hf
    have hx : x = a := by
      by_contra hne
      have := hdirs x hmem hne
      simp [this] at hpred
    rw [hx]
    simp [hnone]
  | none =>
    have hall := List.find?_eq_none.mp hf
    rcases ha with ha | ha
    · have := hall a ha
      simp [hnone] at this
    · rw [← ha, hnone]

theorem MemFS.rmrf_ok (s s2 : MemFS) (p : GoString) (out : Bytes)
    (h : s.rmrf p = (.ok out, s2)) :
    p ≠ [] ∧ p ≠ ['/'] ∧ Base p ≠ ['.'] ∧
      (∀ x, s2.node x =
        if x = p ∨ startsWith (p ++ ['/']) x = true then none else s.node x) ∧
      (∀ x, s2.denied x =
        if x = p ∨ startsWith (p ++ ['/']) x = true then false else s.denied x) := by
  unfold MemFS.rmrf at h
  split at h
  · simp at h
  · rename_i hguard
    split at h
    · simp at h
    · simp only [Prod.mk.injEq] at h
      obtain ⟨_, rfl⟩ := h
      simp only [not_or] at hguard
      exact ⟨hguard.1, hguard.2.1, hguard.2.2.1, fun _ => rfl, fun _ => rfl⟩

theorem memSys_RemoveLaw : memSys.RemoveLaw := by
  intro fs p info out fs2 hstat h
  have hrm : fs.rmrf p = (.ok out, fs2) := by
    have : memSys.Output fs (Command "rm".toList ["-rf".toList, p]) = fs.rmrf p := by
      simp only [memSys, Command, MemFS.Output]
      rw [if_neg (by decide)]
      simp
    rw [← this]
    exact h
  obtain ⟨n, hlook⟩ := MemFS.Stat_ok fs p info hstat
  rw [MemFS.lookup_ok_iff] at hlook
  obtain ⟨hp, _, hdirs, _⟩ := hlook
  obtain ⟨_, hroot, hdot, hnode, hdenied⟩ := MemFS.rmrf_ok fs fs2 p out hrm
  have hpdot : p ≠ ['.'] := by
    intro h2
    apply hdot
    rw [h2]
    decide
  have hkeep : ∀ x ∈ ancestors p, fs2.node x = some .dir := by
    intro x hx
    have hlen := ancestors_length hx
    have h1 : x ≠ p := ancestors_ne hx
    have h2 : ¬ startsWith (p ++ ['/']) x = true := by
      intro hs
      have := startsWith_length hs
      simp at this
      omega
    rw [hnode, if_neg (by simp [h1, h2])]
    exact hdirs x hx
  have hpnone : fs2.node p = none := by
    rw [hnode, if_pos (Or.inl rfl)]
  constructor
  · have : fs2.lookup p = .error (.pathError .ENOENT) :=
      MemFS.lookup_gone fs2 p p hp (by rw [hdenied, if_pos (Or.inl rfl)]) (Or.inr rfl) hpnone
        (fun x hx _ => hkeep x hx)
    simp only [memSys, MemFS.Stat]
    rw [this]
    rfl
  · intro e _ he
    rw [child_of_plain hpdot hroot]
    have hs : startsWith (p ++ ['/']) (p ++ '/' :: e) = true := by
      have := startsWith_append (p ++ ['/']) e
      simpa using this
    have : fs2.lookup (p ++ '/' :: e) = .error (.pathError .ENOENT) :=
      MemFS.lookup_gone fs2 (p ++ '/' :: e) p (by simp)
        (by rw [hdenied, if_pos (Or.inr hs)])
        (Or.inl ((mem_ancestors_child hp he).mpr (Or.inr rfl))) hpnone
        (fun x hx hne => by
          rcases (mem_ancestors_child hp he).mp hx with h1 | h1
          · exact hkeep x h1
          · exact absurd h1 hne)
    simp only [memSys, MemFS.Stat]
    rw [this]
    rfl

/-! ## The claims -/

/-- C1. For every root, image name and hypervisor string, `ImagePath` is the cleaned join of
root, name and the file name `Base name` + `.` + hypervisor; for a non-empty root that is
`Clean` of the three joined by separators; `Base` of a name is its last segment, as `app`
is of `ns/app`; and with name `ns/app` and hypervisor `qemu` the result for root `root` is
`root/ns/app/app.qemu`, as it is for every cleaned root other than `/` and `.`. -/
theorem ImagePath_cleaned_join (root name hypervisor : GoString) :
    Repo.ImagePath ⟨root⟩ hypervisor name = Join [root, name, Base name ++ '.' :: hypervisor] ∧
    (root ≠ [] → Repo.ImagePath ⟨root⟩ hypervisor name =
      Clean (root ++ '/' :: name ++ '/' :: (Base name ++ '.' :: hypervisor))) ∧
    (∀ pre seg : GoString, seg ≠ [] → '/' ∉ seg →
      Base (pre ++ '/' :: seg) = seg ∧ Base seg = seg) ∧
    Base "ns/app".toList = "app".toList ∧
    Repo.ImagePath ⟨"root".toList⟩ "qemu".toList "ns/app".toList =
      "root/ns/app/app.qemu".toList ∧
    (Clean root = root → root ≠ ['/'] → root ≠ ['.'] →
      Repo.ImagePath ⟨root⟩ "qemu".toList "ns/app".toList =
        root ++ "/ns/app/app.qemu".toList) := by
  have h1 : Repo.ImagePath ⟨root⟩ hypervisor name =
      Join [root, name, Base name ++ '.' :: hypervisor] := by
    simp [Repo.ImagePath]
  refine ⟨h1, ?_, ?_, by decide, by decide, ImagePath_ns_app root⟩
  · intro hr
    rw [h1]
    simp [Join, hr, intercalate_three]
  · intro pre seg hs1 hs2
    exact ⟨Base_append_elem pre hs1 hs2, Base_elem hs1 hs2⟩

/-- C2. When the prober reports VDI, QCOW2 or VMDK for the source file and `ImportImage`
returns no error, then afterwards `ImageExists` is true for the mapped tag (VDI to vbox,
QCOW2 to qemu, VMDK to vmware), the image path is the cleaned join of root, name and
`Base name` + `.` + tag, and that path holds the bytes the source file had. -/
theorem ImportImage_then_ImageExists {σ : Type} (sys : Sys σ)
    (hstat : sys.StatLaw) (hmk : sys.MkdirLaw) (hcopy : sys.CopyLaw) (hwrite : sys.WriteLaw)
    (r : Repo) (name file version created description build : GoString) (w w2 : World σ)
    (format : ImageFormat) (h : GoString)
    (hprobe : sys.Probe w.fs file = .ok format)
    (hmap : (format = .VDI ∧ h = "vbox".toList) ∨ (format = .QCOW2 ∧ h = "qemu".toList) ∨
      (format = .VMDK ∧ h = "vmware".toList))
    (himp : r.ImportImage sys name file version created description build w = (none, w2)) :
    r.ImageExists sys w2.fs h name = true ∧
    r.ImagePath h name = Join [r.Path, name, Base name ++ '.' :: h] ∧
    ∃ bytes, sys.Contents w.fs file = some bytes ∧
      sys.Contents w2.fs (r.ImagePath h name) = some bytes := by
  obtain ⟨format2, h2, fs2, out, fs3, value, hp, hfor, _, hmkdir, hcp, _, hwr, _⟩ :=
    ImportImage_ok sys r name file version created description build w w2 himp
  rw [hprobe] at hp
  cases hp
  have hh : h2 = h := by
    rcases hmap with ⟨rfl, rfl⟩ | ⟨rfl, rfl⟩ | ⟨rfl, rfl⟩ <;>
      simpa [hypervisorFor] using hfor.symm
  subst hh
  have hmem := hypervisorFor_mem hfor
  have hfs2 : ∀ q, sys.Contents fs2 q = sys.Contents w.fs q := by
    intro q
    have := hmk w.fs (Dir (r.ImagePath h2 name)) 0o775 q
    rw [hmkdir] at this
    exact this
  obtain ⟨hsome, hdst⟩ := hcopy fs2 file (r.ImagePath h2 name) out fs3 hcp
  obtain ⟨_, hframe⟩ := hwrite fs3 _ value 0o644 w2.fs hwr
  have hfinal : sys.Contents w2.fs (r.ImagePath h2 name) = sys.Contents w.fs file := by
    rw [hframe _ (index_ne_payload r name h2 hmem), hdst, hfs2]
  rw [hfs2] at hsome
  obtain ⟨bytes, hbytes⟩ := Option.isSome_iff_exists.mp hsome
  refine ⟨?_, by simp [Repo.ImagePath], bytes, hbytes, by rw [hfinal, hbytes]⟩
  obtain ⟨info, hinfo⟩ := hstat w2.fs _ bytes (by rw [hfinal, hbytes])
  simp [Repo.ImageExists, hinfo, errOf, IsNotExist]

/-- C3. When the prober reports a format that is none of VDI, QCOW2 and VMDK, `ImportImage`
returns the error `<file>: unsupported image format` and leaves the file system and the
standard output as they were. -/
theorem ImportImage_unsupported_format {σ : Type} (sys : Sys σ) (r : Repo)
    (name file version created description build : GoString) (w : World σ)
    (format : ImageFormat) (hprobe : sys.Probe w.fs file = .ok format)
    (h1 : format ≠ .VDI) (h2 : format ≠ .QCOW2) (h3 : format ≠ .VMDK) :
    r.ImportImage sys name file version created description build w =
      (some (GoError.errorString (file ++ ": unsupported image format".toList)), w) := by
  unfold Repo.ImportImage
  rw [hprobe]
  cases format <;> simp_all [hypervisorFor]

/-- C4, amended. When the stat of the source path fails with a not-found error, `ImportImage`
fails and leaves the file system and the standard output as they were; the error is the
prober's own error when the probe fails, `<file>: unsupported image format` when the probe
reports an unknown format, and `<file>: no such file` when the probe reports VDI, QCOW2 or
VMDK. -/
theorem ImportImage_missing_source {σ : Type} (sys : Sys σ) (r : Repo)
    (name file version created description build : GoString) (w : World σ)
    (hmissing : IsNotExist (errOf (sys.Stat w.fs file)) = true) :
    (r.ImportImage sys name file version created description build w).2 = w ∧
    (r.ImportImage sys name file version created description build w).1 ≠ none ∧
    (∀ err, sys.Probe w.fs file = .error err →
      (r.ImportImage sys name file version created description build w).1 = some err) ∧
    (sys.Probe w.fs file = .ok .Unknown →
      (r.ImportImage sys name file version created description build w).1 =
        some (GoError.errorString (file ++ ": unsupported image format".toList))) ∧
    (∀ format, sys.Probe w.fs file = .ok format →
      format = .VDI ∨ format = .QCOW2 ∨ format = .VMDK →
      (r.ImportImage sys name file version created description build w).1 =
        some (GoError.errorString (file ++ ": no such file".toList))) := by
  unfold Repo.ImportImage
  cases hp : sys.Probe w.fs file with
  | error err => simp
  | ok format => cases format <;> simp [hypervisorFor, hmissing, errorsNew]

/-- C5, amended. When the stat of the cleaned join of root and name fails with a not-found
error, `RemoveImage` returns the error whose message is the image name followed by
`: no such image` and a newline, runs no command, and leaves the file system and the standard
output as they were. When the stat succeeds or fails with any other error, as it does with
`ENOTDIR` for a name below a regular file, `RemoveImage` prints its notice, runs `rm -rf` on
the path and returns the result of that command. -/
theorem RemoveImage_not_found {σ : Type} (sys : Sys σ) (r : Repo) (image : GoString)
    (w : World σ) :
    (IsNotExist (errOf (sys.Stat w.fs (Join [r.Path, image]))) = true →
      r.RemoveImage sys image w =
        (some (GoError.errorString (image ++ ": no such image".toList ++ ['\n'])), w)) ∧
    (IsNotExist (errOf (sys.Stat w.fs (Join [r.Path, image]))) = false →
      r.RemoveImage sys image w =
        (errOf (sys.Output w.fs
            (Command "rm".toList ["-rf".toList, Join [r.Path, image]])).1,
          ⟨(sys.Output w.fs (Command "rm".toList ["-rf".toList, Join [r.Path, image]])).2,
            w.stdout ++ ["Removing ".toList ++ image ++ "...\n".toList]⟩)) := by
  have hmsg : ": no such image\n".toList = ": no such image".toList ++ ['\n'] := by decide
  constructor
  · intro hmissing
    unfold Repo.RemoveImage
    simp only [hmissing, if_true, errorsNew]
    rw [hmsg, List.append_assoc]
  · intro hfound
    unfold Repo.RemoveImage
    simp only [hfound, Bool.false_eq_true, if_false, World.Printf]

/-- C6, amended. When the cleaned join of root and name exists and `rm -rf` of it succeeds,
`RemoveImage` returns no error, and afterwards `ImageExists` is false for every hypervisor
tag that is non-empty, holds no separator and is not `.` (as qemu, vbox and vmware are), and
the metadata file under the removed directory cannot be found either. -/
theorem RemoveImage_then_not_exists {σ : Type} (sys : Sys σ)
    (hrm : sys.RemoveLaw) (hempty : sys.EmptyPathLaw)
    (r : Repo) (image : GoString) (w : World σ) (info : FileInfo) (out : Bytes) (fs2 : σ)
    (h : GoString)
    (hex : sys.Stat w.fs (Join [r.Path, image]) = .ok info)
    (hrun : sys.Output w.fs (Command "rm".toList ["-rf".toList, Join [r.Path, image]])
      = (.ok out, fs2))
    (hh : PlainTag h) :
    r.RemoveImage sys image w =
      (none, ⟨fs2, w.stdout ++ ["Removing ".toList ++ image ++ "...\n".toList]⟩) ∧
    r.ImageExists sys fs2 h image = false ∧
    IsNotExist (errOf (sys.Stat fs2 (Join [Join [r.Path, image], "index.yaml".toList]))) = true
    := by
  have hne : ¬ (r.Path = [] ∧ image = []) := by
    rintro ⟨h1, h2⟩
    have := hempty w.fs
    rw [h1, h2] at hex
    have hj : Join [([] : GoString), []] = [] := by simp [Join]
    rw [hj] at hex
    rw [hex] at this
    simp [errOf, IsNotExist] at this
  obtain ⟨hgone, hchild⟩ := hrm w.fs _ info out fs2 hex hrun
  refine ⟨?_, ?_, ?_⟩
  · have hn : IsNotExist (errOf (sys.Stat w.fs (Join [r.Path, image]))) = false := by
      rw [hex]
      rfl
    unfold Repo.RemoveImage
    simp only [hn, Bool.false_eq_true, if_false, World.Printf]
    change (errOf (sys.Output w.fs (Command "rm".toList ["-rf".toList, Join [r.Path, image]])).1,
      (⟨(sys.Output w.fs (Command "rm".toList ["-rf".toList, Join [r.Path, image]])).2, _⟩ :
        World σ)) = _
    rw [hrun]
    rfl
  · obtain ⟨e, b, he, _, hpath⟩ := ImagePath_eq_child r.Path image h hne hh
    have := hchild e he.1 he.2.1
    unfold Repo.ImageExists
    simp only
    rw [show r.ImagePath h image = Repo.ImagePath ⟨r.Path⟩ h image from rfl, hpath, this]
    rfl
  · obtain ⟨_, hj⟩ := Join_two r.Path image hne
    have hidx : Normal "index.yaml".toList := by decide
    rw [hj, Join_clean_elem _ hidx, ← hj]
    exact hchild _ hidx.1 hidx.2.1

/-- C7, amended. `ImageExists` returns false exactly when the stat of the image path fails
with a not-found error; it returns true when the stat succeeds and also when the stat fails
with any other error, such as permission denied. -/
theorem ImageExists_false_iff_not_exist {σ : Type} (sys : Sys σ) (r : Repo) (fs : σ)
    (hypervisor image : GoString) :
    (r.ImageExists sys fs hypervisor image = false ↔
      sys.Stat fs (r.ImagePath hypervisor image) = .error (.pathError .ENOENT)) ∧
    (∀ info, sys.Stat fs (r.ImagePath hypervisor image) = .ok info →
      r.ImageExists sys fs hypervisor image = true) ∧
    (∀ err, sys.Stat fs (r.ImagePath hypervisor image) = .error err →
      err ≠ .pathError .ENOENT → r.ImageExists sys fs hypervisor image = true) := by
  unfold Repo.ImageExists
  simp only
  cases hs : sys.Stat fs (r.ImagePath hypervisor image) with
  | ok info => simp [errOf, IsNotExist]
  | error err =>
    cases err with
    | pathError errno => cases errno <;> simp [errOf, IsNotExist]
    | errorString msg => simp [errOf, IsNotExist]
    | exitError status => simp [errOf, IsNotExist]
    | external msg => simp [errOf, IsNotExist]

/-- C8. `ListImages` leaves the file system as it was and prints the header line and then, for
each entry of the root in directory order, one line for each of its entries that is a
directory (the presenter's record, or namespace, separator and entry name when there is
none), no line for plain files, and the bare namespace name once exactly when it has no
directory entry and at least one plain-file entry; an empty or unreadable namespace
contributes no line. A root with one namespace holding one image directory without record
prints namespace, separator and image name; a namespace holding only plain files prints the
bare namespace name once. -/
theorem ListImages_lines {σ : Type} (sys : Sys σ) (r : Repo) (w : World σ) :
    (r.ListImages sys w).fs = w.fs ∧
    (r.ListImages sys w).stdout =
      w.stdout ++ (specListingLines sys r w.fs).map (fun l => l ++ ['\n']) ∧
    (∀ n, (sys.ReadDir w.fs (Join [r.Path, n.Name]) = .ok [] ∨
        ∃ err, sys.ReadDir w.fs (Join [r.Path, n.Name]) = .error err) →
      specNamespaceLines sys r w.fs n = []) ∧
    (∀ ns img, sys.ReadDir w.fs r.Path = .ok [ns] →
      sys.ReadDir w.fs (Join [r.Path, ns.Name]) = .ok [img] → img.IsDir = true →
      sys.MakeFileInfo w.fs r.Path ns.Name img.Name = none →
      (r.ListImages sys w).stdout =
        w.stdout ++ [sys.FileInfoHeader ++ ['\n'], ns.Name ++ '/' :: img.Name ++ ['\n']]) ∧
    (∀ ns files, sys.ReadDir w.fs r.Path = .ok [ns] →
      sys.ReadDir w.fs (Join [r.Path, ns.Name]) = .ok files → files ≠ [] →
      (∀ f ∈ files, f.IsDir = false) →
      (r.ListImages sys w).stdout =
        w.stdout ++ [sys.FileInfoHeader ++ ['\n'], ns.Name ++ ['\n']]) := by
  rw [ListImages_eq]
  refine ⟨rfl, rfl, ?_, ?_, ?_⟩
  · rintro n (h | ⟨err, h⟩) <;> simp [specNamespaceLines, readDirOrEmpty, h]
  · intro ns img h1 h2 h3 h4
    simp [specListingLines, specNamespaceLines, readDirOrEmpty, h1, h2, h3, specImageLine, h4]
  · intro ns files h1 h2 h3 h4
    have hd : files.filter (fun i => i.IsDir) = [] := by
      rw [List.filter_eq_nil_iff]
      intro f hf
      simp [h4 f hf]
    have hf : files.filter (fun i => !i.IsDir) = files := by
      rw [List.filter_eq_self]
      intro f hf
      simp [h4 f hf]
    simp [specListingLines, specNamespaceLines, readDirOrEmpty, h1, h2, hd, hf, h3]

/-- C9. After a successful `ImportImage` the metadata file `index.yaml` in the directory of
the image path holds the encoding of the record with format version `1` and the version,
creation time, description and build that were passed in; that directory is the cleaned join
of root and name unless both are empty; and every decoder that inverts the encoder reads the
record back with those field values. -/
theorem ImportImage_metadata_record {σ : Type} (sys : Sys σ) (hwrite : sys.WriteLaw)
    (r : Repo) (name file version created description build : GoString) (w w2 : World σ)
    (himp : r.ImportImage sys name file version created description build w = (none, w2)) :
    ∃ h value, h ∈ hypervisorTags ∧
      sys.Marshal ⟨"1".toList, version, created, description, build⟩ = .ok value ∧
      sys.Contents w2.fs (Join [Dir (r.ImagePath h name), "index.yaml".toList]) = some value ∧
      (¬ (r.Path = [] ∧ name = []) → Dir (r.ImagePath h name) = Join [r.Path, name]) ∧
      ∀ decode : Bytes → Option ImageInfo,
        (∀ i v, sys.Marshal i = .ok v → decode v = some i) →
        ∃ info, decode value = some info ∧ info.FormatVersion = "1".toList ∧
          info.Version = version ∧ info.Created = created ∧
          info.Description = description ∧ info.Build = build := by
  obtain ⟨format, h, fs2, out, fs3, value, _, hfor, _, _, _, hval, hwr, _⟩ :=
    ImportImage_ok sys r name file version created description build w w2 himp
  have hmem := hypervisorFor_mem hfor
  refine ⟨h, value, hmem, hval, (hwrite fs3 _ value 0o644 w2.fs hwr).1, ?_, ?_⟩
  · intro hne
    exact Dir_ImagePath r.Path name h hne (plainTag_of_mem hmem)
  · intro decode hinv
    exact ⟨_, hinv _ _ hval, rfl, rfl, rfl, rfl, rfl⟩

theorem NewRepo_path_ne_nil (capstanRoot homePath : GoString) :
    (NewRepo capstanRoot homePath).Path ≠ [] := by
  unfold NewRepo
  by_cases h : capstanRoot = []
  · simp only [h, if_true]
    by_cases hh : homePath = []
    · subst hh
      decide
    · simp only [Join, ne_eq, hh, not_false_eq_true, if_true]
      exact Clean_ne_nil _
  · simp [h]

theorem Dir_index (p : GoString) :
    Dir (Join [Clean p, "index.yaml".toList]) = Clean p := by
  have hidx : Normal "index.yaml".toList := by decide
  rw [Join_dir_elem (Clean_ne_nil p) hidx, Dir_pushElem (cleanState_canon _) hidx,
    ← Clean_eq _ (Clean_ne_nil p), Clean_idem]

/-- C10, amended. For every root and image name that are not both empty, so for every root
that `NewRepo` builds, and each hypervisor tag among qemu, vbox and vmware, the directory of
the image path is the cleaned join of root and name, the path `RemoveImage` stats and
deletes, and so is the directory of the metadata file. Hence, after a successful import, a
`RemoveImage` of the same name whose `rm -rf` succeeds returns no error and leaves neither
that directory nor the payload nor the metadata file the import wrote. Nothing is said of
the ancestors of that directory which the import created. -/
theorem RemoveImage_removes_import :
    (∀ (root name h : GoString), h ∈ hypervisorTags → ¬ (root = [] ∧ name = []) →
      Dir (Repo.ImagePath ⟨root⟩ h name) = Join [root, name] ∧
      Dir (Join [Dir (Repo.ImagePath ⟨root⟩ h name), "index.yaml".toList]) =
        Join [root, name]) ∧
    (∀ (capstanRoot homePath name h : GoString), h ∈ hypervisorTags →
      Dir ((NewRepo capstanRoot homePath).ImagePath h name) =
        Join [(NewRepo capstanRoot homePath).Path, name]) ∧
    (∀ {σ : Type} (sys : Sys σ), sys.CopyLaw → sys.WriteLaw → sys.RemoveLaw →
      sys.EmptyPathLaw →
      ∀ (r : Repo) (name file version created description build : GoString)
        (w w2 : World σ) (info : FileInfo) (out : Bytes) (fs3 : σ),
      r.ImportImage sys name file version created description build w = (none, w2) →
      sys.Stat w2.fs (Join [r.Path, name]) = .ok info →
      sys.Output w2.fs (Command "rm".toList ["-rf".toList, Join [r.Path, name]])
        = (.ok out, fs3) →
      ∃ h value, h ∈ hypervisorTags ∧
        Dir (r.ImagePath h name) = Join [r.Path, name] ∧
        (sys.Contents w2.fs (r.ImagePath h name)).isSome = true ∧
        sys.Contents w2.fs (Join [Join [r.Path, name], "index.yaml".toList]) = some value ∧
        r.RemoveImage sys name w2 =
          (none, ⟨fs3, w2.stdout ++ ["Removing ".toList ++ name ++ "...\n".toList]⟩) ∧
        IsNotExist (errOf (sys.Stat fs3 (Join [r.Path, name]))) = true ∧
        IsNotExist (errOf (sys.Stat fs3 (r.ImagePath h name))) = true ∧
        IsNotExist (errOf (sys.Stat fs3
          (Join [Join [r.Path, name], "index.yaml".toList]))) = true) := by
  have hpure : ∀ (root name h : GoString), h ∈ hypervisorTags → ¬ (root = [] ∧ name = []) →
      Dir (Repo.ImagePath ⟨root⟩ h name) = Join [root, name] ∧
      Dir (Join [Dir (Repo.ImagePath ⟨root⟩ h name), "index.yaml".toList]) =
        Join [root, name] := by
    intro root name h hh hne
    have h1 := Dir_ImagePath root name h hne (plainTag_of_mem hh)
    refine ⟨h1, ?_⟩
    rw [h1, (Join_two root name hne).2]
    exact Dir_index _
  refine ⟨hpure, ?_, ?_⟩
  · intro capstanRoot homePath name h hh
    exact (hpure _ name h hh (fun hc => NewRepo_path_ne_nil capstanRoot homePath hc.1)).1
  · intro σ sys hcopy hwrite hrm hempty r name file version created description build
      w w2 info out fs3 himp hex hrun
    have hne : ¬ (r.Path = [] ∧ name = []) := by
      rintro ⟨h1, h2⟩
      have := hempty w2.fs
      rw [h1, h2] at hex
      have hj : Join [([] : GoString), []] = [] := by simp [Join]
      rw [hj] at hex
      rw [hex] at this
      simp [errOf, IsNotExist] at this
    obtain ⟨format, h, fs2, out2, fs4, value, _, hfor, _, _, hcp, _, hwr, _⟩ :=
      ImportImage_ok sys r name file version created description build w w2 himp
    have hmem := hypervisorFor_mem hfor
    have hdir : Dir (r.ImagePath h name) = Join [r.Path, name] :=
      (hpure r.Path name h hmem hne).1
    obtain ⟨hsome, hdst⟩ := hcopy fs2 file (r.ImagePath h name) out2 fs4 hcp
    obtain ⟨hidx, hframe⟩ := hwrite fs4 _ value 0o644 w2.fs hwr
    obtain ⟨hgone, hchild⟩ := hrm w2.fs _ info out fs3 hex hrun
    refine ⟨h, value, hmem, hdir, ?_, ?_, ?_, hgone, ?_, ?_⟩
    · rw [hframe _ (index_ne_payload r name h hmem), hdst]
      exact hsome
    · rw [← hdir]
      exact hidx
    · have hn : IsNotExist (errOf (sys.Stat w2.fs (Join [r.Path, name]))) = false := by
        rw [hex]
        rfl
      unfold Repo.RemoveImage
      simp only [hn, Bool.false_eq_true, if_false, World.Printf]
      change (errOf (sys.Output w2.fs
          (Command "rm".toList ["-rf".toList, Join [r.Path, name]])).1,
        (⟨(sys.Output w2.fs (Command "rm".toList ["-rf".toList, Join [r.Path, name]])).2, _⟩ :
          World σ)) = _
      rw [hrun]
      rfl
    · obtain ⟨e, b, he, _, hpath⟩ :=
        ImagePath_eq_child r.Path name h hne (plainTag_of_mem hmem)
      rw [show r.ImagePath h name = Repo.ImagePath ⟨r.Path⟩ h name from rfl, hpath]
      exact hchild e he.1 he.2.1
    · obtain ⟨_, hj⟩ := Join_two r.Path name hne
      have hnidx : Normal "index.yaml".toList := by decide
      rw [hj, Join_clean_elem _ hnidx, ← hj]
      exact hchild _ hnidx.1 hnidx.2.1

/-! ## Witnesses and counterexamples -/

/-- C1 at root `/srv/repo`, a cleaned root other than `/` and `.`. -/
theorem ImagePath_cleaned_join_witness :
    Repo.ImagePath ⟨"/srv/repo".toList⟩ "qemu".toList "ns/app".toList =
      "/srv/repo/ns/app/app.qemu".toList :=
  (ImagePath_cleaned_join "/srv/repo".toList "ns/app".toList "qemu".toList).2.2.2.2.2
    (by decide) (by decide) (by decide)

/-- C2 at the import of the QCOW2 file `/tmp/disk.img` as image `app`. -/
theorem ImportImage_then_ImageExists_witness :
    memSys.Probe fs0 "/tmp/disk.img".toList = .ok .QCOW2 ∧ imported0.1 = none ∧
    repo0.ImageExists memSys imported0.2.fs "qemu".toList "app".toList = true ∧
    repo0.ImagePath "qemu".toList "app".toList =
      Join [repo0.Path, "app".toList, Base "app".toList ++ '.' :: "qemu".toList] ∧
    ∃ bytes, memSys.Contents world0.fs "/tmp/disk.img".toList = some bytes ∧
      memSys.Contents imported0.2.fs (repo0.ImagePath "qemu".toList "app".toList) = some bytes :=
  ⟨by decide, by decide,
    ImportImage_then_ImageExists memSys memSys_StatLaw memSys_MkdirLaw memSys_CopyLaw
      memSys_WriteLaw repo0 "app".toList "/tmp/disk.img".toList "1.0".toList
      "2014-06-01".toList "demo".toList "b42".toList world0 imported0.2 .QCOW2 "qemu".toList
      (by decide) (Or.inr (Or.inl ⟨rfl, rfl⟩)) (Prod.ext (by decide) rfl)⟩

/-- C3 at the import of the text file `/tmp/notes.txt`. -/
theorem ImportImage_unsupported_format_witness :
    memSys.Probe fs0 "/tmp/notes.txt".toList = .ok .Unknown ∧
    (repo0.ImportImage memSys "app".toList "/tmp/notes.txt".toList "1.0".toList
      "2014-06-01".toList "demo".toList "b42".toList world0).1 =
      some (GoError.errorString "/tmp/notes.txt: unsupported image format".toList) :=
  ⟨by decide,
    congrArg Prod.fst (ImportImage_unsupported_format memSys repo0 "app".toList
      "/tmp/notes.txt".toList "1.0".toList "2014-06-01".toList "demo".toList "b42".toList
      world0 .Unknown (by decide) (by decide) (by decide) (by decide))⟩

/-- C4, amended, at the import of the missing file `/tmp/none`. -/
theorem ImportImage_missing_source_witness :
    IsNotExist (errOf (memSys.Stat fs0 "/tmp/none".toList)) = true ∧
    (repo0.ImportImage memSys "app".toList "/tmp/none".toList "1.0".toList
      "2014-06-01".toList "demo".toList "b42".toList world0).2 = world0 :=
  ⟨by decide,
    (ImportImage_missing_source memSys repo0 "app".toList "/tmp/none".toList "1.0".toList
      "2014-06-01".toList "demo".toList "b42".toList world0 (by decide)).1⟩

/-- C4, counterexample. The source `/tmp/none` does not exist, and `ImportImage` returns the
prober's not-found error, not `/tmp/none: no such file`. -/
theorem ImportImage_missing_source_counterexample :
    IsNotExist (errOf (memSys.Stat fs0 "/tmp/none".toList)) = true ∧
    (repo0.ImportImage memSys "app".toList "/tmp/none".toList "1.0".toList
      "2014-06-01".toList "demo".toList "b42".toList world0).1 =
      some (GoError.pathError .ENOENT) ∧
    (repo0.ImportImage memSys "app".toList "/tmp/none".toList "1.0".toList
      "2014-06-01".toList "demo".toList "b42".toList world0).1 ≠
      some (GoError.errorString "/tmp/none: no such file".toList) := by
  decide

/-- C5, amended, at the removal of the image `nope`, which the repository does not hold. -/
theorem RemoveImage_not_found_witness :
    IsNotExist (errOf (memSys.Stat fs0 (Join [repo0.Path, "nope".toList]))) = true ∧
    (repo0.RemoveImage memSys "nope".toList world0).1 =
      some (GoError.errorString "nope: no such image\n".toList) :=
  ⟨by decide,
    congrArg Prod.fst
      ((RemoveImage_not_found memSys repo0 "nope".toList world0).1 (by decide))⟩

/-- C5, counterexample. The name `solo/solo.qemu/x` lies below the regular file
`/srv/repo/solo/solo.qemu`, so the path does not exist and its stat fails with `ENOTDIR`;
`RemoveImage` does not return the not-found error: it prints its notice, runs `rm -rf` and
returns no error. -/
theorem RemoveImage_below_file_counterexample :
    memSys.Stat fs0 "/srv/repo/solo/solo.qemu".toList = .ok ⟨"solo.qemu".toList, false⟩ ∧
    Join [repo0.Path, "solo/solo.qemu/x".toList] = "/srv/repo/solo/solo.qemu/x".toList ∧
    memSys.Stat fs0 (Join [repo0.Path, "solo/solo.qemu/x".toList]) =
      .error (.pathError .ENOTDIR) ∧
    (repo0.RemoveImage memSys "solo/solo.qemu/x".toList world0).1 = none ∧
    (repo0.RemoveImage memSys "solo/solo.qemu/x".toList world0).1 ≠
      some (GoError.errorString "solo/solo.qemu/x: no such image\n".toList) ∧
    (repo0.RemoveImage memSys "solo/solo.qemu/x".toList world0).2.stdout =
      ["Removing solo/solo.qemu/x...\n".toList] := by
  decide

/-- C6, amended, at the removal of the image `ns/app` and the tag `qemu`. -/
theorem RemoveImage_then_not_exists_witness :
    memSys.Stat fs0 (Join [repo0.Path, "ns/app".toList]) = .ok ⟨"app".toList, true⟩ ∧
    removed0.1 = none ∧
    repo0.ImageExists memSys removed0.2.fs "qemu".toList "ns/app".toList = false :=
  ⟨by decide, by decide,
    (RemoveImage_then_not_exists memSys memSys_RemoveLaw memSys_EmptyPathLaw repo0
      "ns/app".toList world0 ⟨"app".toList, true⟩ [] removed0.2.fs "qemu".toList
      (by decide) (Prod.ext (by decide) rfl) (by decide)).2.1⟩

/-- C6, counterexample. After `RemoveImage` of `ns/app` succeeded, `ImageExists` is still true
for the hypervisor string `/../..`; after `RemoveImage` of `.` it is true for the empty
hypervisor string, and after `RemoveImage` of `/` for the hypervisor string `.`. -/
theorem RemoveImage_then_exists_counterexample :
    memSys.Stat fs0 (Join [repo0.Path, "ns/app".toList]) = .ok ⟨"app".toList, true⟩ ∧
    removed0.1 = none ∧
    repo0.ImageExists memSys removed0.2.fs "/../..".toList "ns/app".toList = true ∧
    (repo0.RemoveImage memSys ".".toList world0).1 = none ∧
    repo0.ImageExists memSys (repo0.RemoveImage memSys ".".toList world0).2.fs
      [] ".".toList = true ∧
    (repo0.RemoveImage memSys "/".toList world0).1 = none ∧
    repo0.ImageExists memSys (repo0.RemoveImage memSys "/".toList world0).2.fs
      ".".toList "/".toList = true := by
  decide

/-- C7, counterexample. The stat of the payload of image `locked` fails with permission
denied, and `ImageExists` returns true. -/
theorem ImageExists_denied_counterexample :
    memSys.Stat fs0 (repo0.ImagePath "qemu".toList "locked".toList) =
      .error (.pathError .EACCES) ∧
    repo0.ImageExists memSys fs0 "qemu".toList "locked".toList = true := by
  decide

/-- C8 at the repository of `world0`: the header, the image directory `ns/app` without
metadata, and the bare name of the namespace `solo` that holds one plain file. -/
theorem ListImages_lines_witness :
    (repo0.ListImages memSys world0).stdout =
      ["Name Description Version Created\n".toList, "ns/app\n".toList, "solo\n".toList] :=
  (ListImages_lines memSys repo0 world0).2.1.trans (by decide)

/-- C9 at the import of `/tmp/disk.img` as image `app`. -/
theorem ImportImage_metadata_record_witness :
    imported0.1 = none ∧
    ∃ h value, h ∈ hypervisorTags ∧
      memSys.Marshal ⟨"1".toList, "1.0".toList, "2014-06-01".toList, "demo".toList,
        "b42".toList⟩ = .ok value ∧
      memSys.Contents imported0.2.fs
        (Join [Dir (repo0.ImagePath h "app".toList), "index.yaml".toList]) = some value :=
  ⟨by decide, by
    obtain ⟨h, value, h1, h2, h3, _⟩ :=
      ImportImage_metadata_record memSys memSys_WriteLaw repo0 "app".toList
        "/tmp/disk.img".toList "1.0".toList "2014-06-01".toList "demo".toList "b42".toList
        world0 imported0.2 (Prod.ext (by decide) rfl)
    exact ⟨h, value, h1, h2, h3⟩⟩

/-- C10, amended, at root `/srv/repo` with tag `qemu` and the names `ns/app`, the empty name,
`a/../b` and `..`, at the relative root `repo` with tag `vmware` and name `./x/`, and at
the import of `/tmp/disk.img` as image `app` followed by its removal. -/
theorem RemoveImage_removes_import_witness :
    Dir (Repo.ImagePath ⟨"/srv/repo".toList⟩ "qemu".toList "ns/app".toList) =
      "/srv/repo/ns/app".toList ∧
    Dir (Repo.ImagePath ⟨"/srv/repo".toList⟩ "qemu".toList []) = "/srv/repo".toList ∧
    Dir (Repo.ImagePath ⟨"/srv/repo".toList⟩ "qemu".toList "a/../b".toList) =
      "/srv/repo/b".toList ∧
    Dir (Repo.ImagePath ⟨"/srv/repo".toList⟩ "qemu".toList "..".toList) = "/srv".toList ∧
    Dir (Repo.ImagePath ⟨"repo".toList⟩ "vmware".toList "./x/".toList) = "repo/x".toList ∧
    imported0.1 = none ∧
    memSys.Stat imported0.2.fs (Join [repo0.Path, "app".toList]) = .ok ⟨"app".toList, true⟩ ∧
    repo0.ImageExists memSys imported0.2.fs "qemu".toList "app".toList = true ∧
    removed1.1 = none ∧
    ∃ h value, h ∈ hypervisorTags ∧
      Dir (repo0.ImagePath h "app".toList) = Join [repo0.Path, "app".toList] ∧
      (memSys.Contents imported0.2.fs (repo0.ImagePath h "app".toList)).isSome = true ∧
      memSys.Contents imported0.2.fs
        (Join [Join [repo0.Path, "app".toList], "index.yaml".toList]) = some value ∧
      repo0.RemoveImage memSys "app".toList imported0.2 =
        (none, ⟨removed1.2.fs,
          imported0.2.stdout ++ ["Removing ".toList ++ "app".toList ++ "...\n".toList]⟩) ∧
      IsNotExist (errOf (memSys.Stat removed1.2.fs (Join [repo0.Path, "app".toList]))) = true ∧
      IsNotExist (errOf (memSys.Stat removed1.2.fs (repo0.ImagePath h "app".toList))) = true ∧
      IsNotExist (errOf (memSys.Stat removed1.2.fs
        (Join [Join [repo0.Path, "app".toList], "index.yaml".toList]))) = true :=
  ⟨(RemoveImage_removes_import.1 "/srv/repo".toList "ns/app".toList "qemu".toList (by decide)
      (by decide)).1.trans (by decide),
    (RemoveImage_removes_import.1 "/srv/repo".toList [] "qemu".toList (by decide)
      (by decide)).1.trans (by decide),
    (RemoveImage_removes_import.1 "/srv/repo".toList "a/../b".toList "qemu".toList (by decide)
      (by decide)).1.trans (by decide),
    (RemoveImage_removes_import.1 "/srv/repo".toList "..".toList "qemu".toList (by decide)
      (by decide)).1.trans (by decide),
    (RemoveImage_removes_import.1 "repo".toList "./x/".toList "vmware".toList (by decide)
      (by decide)).1.trans (by decide),
    by decide, by decide, by decide, by decide,
    RemoveImage_removes_import.2.2 memSys memSys_CopyLaw memSys_WriteLaw memSys_RemoveLaw
      memSys_EmptyPathLaw repo0 "app".toList "/tmp/disk.img".toList "1.0".toList
      "2014-06-01".toList "demo".toList "b42".toList world0 imported0.2
      ⟨"app".toList, true⟩ [] removed1.2.fs (Prod.ext (by decide) rfl) (by decide)
      (Prod.ext (by decide) rfl)⟩

/-- C10, counterexample. The repository holds no `ns2`. Importing `/tmp/disk.img` as image
`ns2/app` creates the directory `/srv/repo/ns2` on the way to `/srv/repo/ns2/app`; the
`RemoveImage` of `ns2/app` that follows succeeds and removes the payload, and the directory
`/srv/repo/ns2` that the import created is still there. -/
theorem RemoveImage_leaves_namespace_counterexample :
    memSys.Stat fs0 "/srv/repo/ns2".toList = .error (.pathError .ENOENT) ∧
    imported2.1 = none ∧
    memSys.Stat imported2.2.fs "/srv/repo/ns2".toList = .ok ⟨"ns2".toList, true⟩ ∧
    repo0.ImageExists memSys imported2.2.fs "qemu".toList "ns2/app".toList = true ∧
    removed2.1 = none ∧
    repo0.ImageExists memSys removed2.2.fs "qemu".toList "ns2/app".toList = false ∧
    memSys.Stat removed2.2.fs "/srv/repo/ns2".toList = .ok ⟨"ns2".toList, true⟩ := by
  decide

end Capstan
